import Mathlib

/-!
Verification of `torchdata/dataloader2/utils/dispatch.py`.

The source operates on a `DataPipeGraph`: a rooted, possibly node-shared and
possibly cyclically-referenced directed graph of DataPipe objects, represented
in Python as a nested dictionary mapping each node's identity (`id(dp)`) to a
pair of the node object and the dictionary for its direct predecessors.

Shallow embedding choices:
  * A node is identified with its Python identity, a `Nat`.
  * `Env` models the object heap: the finite list `univ` of node identities,
    the runtime type of each node (`kind`), and the direct-predecessor list of
    each node (`preds`, in dictionary insertion order).  The nested dictionary
    of the source is determined by this data, because the Python structure is
    built by following live object references.
  * `RootedGraph` models the top-level dictionary passed to the two public
    functions: its list of keys (`roots`) together with the heap.
  * Python's memoization dictionaries become association lists threaded through
    the recursion; an assignment is a prepend, a read is `mlookup`.
  * The recursions of the source are guarded by memo tables and terminate on
    arbitrary (also cyclic) graphs; the embedding uses a fuel parameter, and
    fuel exhaustion is surfaced as `GraphError.depthExhausted` so that
    termination on every graph is a provable statement rather than an
    assumption.
  * `traverse_dps` and `list_dps` are imported by the source from
    `torchdata.dataloader2.graph`, which is outside the analyzed sources; they
    are modelled from the spec (see `dfsNode` and `predClos`).
-/

/-- Runtime type of a DataPipe object, as far as `dispatch.py` inspects it:
`type(dp) == ShardingRoundRobinDispatcher` marks the non-replicable dispatch
stage, `type(dp) == _DummyIterDataPipe` is the placeholder, everything else is
an ordinary stage. -/
inductive NodeKind where
  | plain
  | roundRobinSharding
  | dummy
deriving DecidableEq

/-- The object heap behind a `DataPipeGraph`: the finite universe of node
identities, each node's runtime type, and each node's direct predecessors in
dictionary insertion order.  `closed` records that following a reference from
a heap object stays inside the heap. -/
structure Env where
  univ : List Nat
  kind : Nat → NodeKind
  preds : Nat → List Nat
  closed : ∀ i ∈ univ, ∀ j ∈ preds i, j ∈ univ

/-- The top-level `DataPipeGraph` dictionary: its keys (`roots`) over a heap.
The source asserts that there is exactly one key. -/
structure RootedGraph where
  env : Env
  roots : List Nat
  roots_mem : ∀ r ∈ roots, r ∈ env.univ

/-- How a call of the two public functions can fail: the `assert` on the graph
shape, or (in the source) exhaustion of the Python recursion stack, which the
embedding makes explicit via fuel. -/
inductive GraphError where
  | invalidShape
  | depthExhausted
deriving DecidableEq

/-- Reading a Python dictionary modelled as an association list: the most
recent binding of a key wins. -/
def mlookup {α : Type} : List (Nat × α) → Nat → Option α
  | [], _ => none
  | (k, v) :: rest, i => if i = k then some v else mlookup rest i

/-- The keys of a dictionary modelled as an association list. -/
def mkeys {α : Type} (m : List (Nat × α)) : List Nat :=
  m.map Prod.fst

/-- `Reach env i j` holds when `j` is `i` itself or a transitive predecessor
of `i`: the reflexive-transitive closure of the direct-predecessor relation. -/
def Reach (env : Env) : Nat → Nat → Prop :=
  Relation.ReflTransGen (fun a b => b ∈ env.preds a)

/-- Modelled from the spec: the flattening traversal (`list_dps`) iterates a
visited list over a worklist of nodes; this is the step that folds the
traversal of each node of a list, threading the visited list. -/
def dfsListF (step : Nat → List Nat → Option (List Nat)) :
    List Nat → List Nat → Option (List Nat)
  | [], visited => some visited
  | j :: rest, visited =>
    match step j visited with
    | none => none
    | some v => dfsListF step rest v

/-- Modelled from the spec: the flattening traversal (`list_dps` over
`traverse_dps`) of section 4.1 — collect every node reachable from `i`,
deduplicated by identity, tracking visited identities so that reference
cycles terminate.  A node is recorded strictly before its predecessors are
traversed.  Fuel exhaustion yields `none`. -/
def dfsNode (env : Env) : Nat → Nat → List Nat → Option (List Nat)
  | 0, _, _ => none
  | fuel + 1, i, visited =>
    if i ∈ visited then some visited
    else dfsListF (dfsNode env fuel) (env.preds i) (visited ++ [i])

/-- Modelled from the spec: `list_dps(graph)` for a rooted graph — all nodes
reachable from the root, the root first. -/
def listDps (env : Env) (r : Nat) : Option (List Nat) :=
  dfsNode env (env.univ.length + 1) r []

/-- Modelled from the spec: `list_dps(traverse_dps(dp))` — the full
predecessor closure of a node, i.e. every node reachable from one of its
direct predecessors ("the sub-graph of everything it depends on", 4.1(b)).
The node itself is a member only when it is its own transitive predecessor. -/
def predClos (env : Env) (i : Nat) : Option (List Nat) :=
  dfsListF (dfsNode env (env.univ.length + 1)) (env.preds i) []

/-- The marking loop of `find_lca_non_replicable_dp` (source lines 48-55):
scan the flattened node list; a node already recorded is skipped; for a
`ShardingRoundRobinDispatcher` node, add the identity of every node of its
predecessor closure to the accumulated non-replicable set. -/
def markFold (env : Env) : List Nat → List Nat → Option (List Nat)
  | [], acc => some acc
  | dp :: rest, acc =>
    if dp ∈ acc then markFold env rest acc
    else if env.kind dp = NodeKind.roundRobinSharding then
      match predClos env dp with
      | none => none
      | some closure => markFold env rest (acc ++ closure)
    else markFold env rest acc

/-- The non-replicable set computed by `find_lca_non_replicable_dp` before its
recursive reduction: flatten the rooted graph, then run the marking loop. -/
def nonReplicableSet (env : Env) (r : Nat) : Option (List Nat) :=
  match listDps env r with
  | none => none
  | some dps => markFold env dps []

/-- The reduction step of `_get_lca_from_graph` (source lines 76-85) on the
collected list of non-`None` predecessor outcomes: a single outcome, or
several outcomes that are all the identical node, propagate that node; two or
more distinct outcomes make the current node `i` the lowest common ancestor. -/
def lcaCombine (i : Nat) (ps : List Nat) : Nat :=
  match ps with
  | [] => i
  | p :: rest =>
    if (p :: rest).length = 1 ∨ (p :: rest).all (fun dp => dp == p) = true
    then p else i

/-- The predecessor loop of `_get_lca_from_graph` (source lines 71-74): run
the recursion (`step`) on each direct predecessor in dictionary order,
threading the memo table, and append every non-`None` outcome to the list of
non-replicable parents. -/
def lcaFoldF (step : Nat → List (Nat × Option Nat) → Option (List (Nat × Option Nat) × Option Nat)) :
    List Nat → List (Nat × Option Nat) → List Nat → Option (List (Nat × Option Nat) × List Nat)
  | [], memo, acc => some (memo, acc)
  | j :: rest, memo, acc =>
    match step j memo with
    | none => none
    | some (m, r) =>
      lcaFoldF step rest m
        (match r with
         | some d => acc ++ [d]
         | none => acc)

/-- `_get_lca_from_graph` (source lines 62-85).  A memoized node returns its
entry; a node of the non-replicable set records and returns itself; otherwise
a provisional `none` entry is written strictly before the predecessor loop
(the cycle guard), the outcomes are collected, and a non-empty outcome list is
reduced by `lcaCombine`, overwriting the provisional entry. -/
def lcaAux (env : Env) (nrs : List Nat) :
    Nat → Nat → List (Nat × Option Nat) → Option (List (Nat × Option Nat) × Option Nat)
  | 0, _, _ => none
  | fuel + 1, i, memo =>
    match mlookup memo i with
    | some r => some (memo, r)
    | none =>
      if i ∈ nrs then
        some ((i, some i) :: memo, some i)
      else
        match lcaFoldF (lcaAux env nrs fuel) (env.preds i) ((i, none) :: memo) [] with
        | none => none
        | some (memo2, ps) =>
          if ps.length > 0 then
            let r : Option Nat := some (lcaCombine i ps)
            some ((i, r) :: memo2, r)
          else
            -- the provisional `(i, none)` entry of `memo2` is returned unchanged
            some (memo2, none)

/-- `find_lca_non_replicable_dp` (source lines 29-87): assert the single-root
shape, compute the non-replicable set, then reduce from the root. -/
def find_lca_non_replicable_dp (g : RootedGraph) : Except GraphError (Option Nat) :=
  match g.roots with
  | [r] =>
    match nonReplicableSet g.env r with
    | none => .error .depthExhausted
    | some nrs =>
      match lcaAux g.env nrs (g.env.univ.length + 1) r [] with
      | none => .error .depthExhausted
      | some (_, res) => .ok res
  | _ => .error .invalidShape

/-- The child loop of `_is_replicable_graph` (source lines 110-113): run the
recursion (`step`) on each direct predecessor in dictionary order, threading
the memo table and the result list; whenever a child's closure is found
non-replicable, immediately downgrade the entry of the current node
(`selfId`) to `false`, and do not break. -/
def branchFoldF (selfId : Nat)
    (step : Nat → List (Nat × Bool) → List Nat → Option (List (Nat × Bool) × List Nat × Bool)) :
    List Nat → List (Nat × Bool) → List Nat → Option (List (Nat × Bool) × List Nat)
  | [], memo, dps => some (memo, dps)
  | j :: rest, memo, dps =>
    match step j memo dps with
    | none => none
    | some (m, d, b) =>
      branchFoldF selfId step rest (if b then m else (selfId, false) :: m) d

/-- `_is_replicable_graph` (source lines 103-119).  A memoized node returns
its entry; a `_DummyIterDataPipe` records and returns `false` without
touching the result list; otherwise the node optimistically records `true`
strictly before the child loop, and if its entry has been downgraded to
`false` by the loop, every direct predecessor whose entry is `true` is
appended to the result list. -/
def branchAux (env : Env) :
    Nat → Nat → List (Nat × Bool) → List Nat → Option (List (Nat × Bool) × List Nat × Bool)
  | 0, _, _, _ => none
  | fuel + 1, i, memo, dps =>
    match mlookup memo i with
    | some b => some (memo, dps, b)
    | none =>
      if env.kind i = NodeKind.dummy then
        some ((i, false) :: memo, dps, false)
      else
        match branchFoldF i (branchAux env fuel) (env.preds i) ((i, true) :: memo) dps with
        | none => none
        | some (memo2, dps2) =>
          if (mlookup memo2 i).getD true then
            some (memo2, dps2, true)
          else
            some (memo2,
              dps2 ++ (env.preds i).filter (fun j => (mlookup memo2 j).getD false),
              false)

/-- `find_replicable_branches` (source lines 90-124): assert the single-root
shape, run the recursion from the root, and append the root itself when its
whole closure is replicable. -/
def find_replicable_branches (g : RootedGraph) : Except GraphError (List Nat) :=
  match g.roots with
  | [r] =>
    match branchAux g.env (g.env.univ.length + 1) r [] [] with
    | none => .error .depthExhausted
    | some (_, dps, b) => .ok (if b then dps ++ [r] else dps)
  | _ => .error .invalidShape

/-! ### Derived definitions used by the development -/

/-- Number of heap nodes not yet recorded in a visited list (or memo key
list): the measure that bounds the recursion depth of every traversal. -/
def unseenCard (env : Env) (v : List Nat) : Nat :=
  (env.univ.toFinset \ v.toFinset).card

/-- Every value recorded in an LCA memo is `none`. -/
def AllNoneMemo (memo : List (Nat × Option Nat)) : Prop :=
  ∀ k v, mlookup memo k = some v → v = none

/-- Soundness invariant of the result list: every appended node is a direct
predecessor of a node whose entry is `false`. -/
def BranchSound (env : Env) (memo : List (Nat × Bool)) (dps : List Nat) : Prop :=
  ∀ x ∈ dps, ∃ m, mlookup memo m = some false ∧ x ∈ env.preds m

/-- Completeness invariant: every node recorded non-replicable that is not a
placeholder and not still being processed (`S` is the set of open nodes on
the recursion stack) has had its append loop run: each of its direct
predecessors has an entry, and those with a `true` entry are in the result
list. -/
def BranchComplete (env : Env) (S : List Nat) (memo : List (Nat × Bool)) (dps : List Nat) :
    Prop :=
  ∀ m, mlookup memo m = some false → env.kind m ≠ NodeKind.dummy →
    m ∈ S ∨ ∀ x ∈ env.preds m, ∃ v, mlookup memo x = some v ∧ (v = true → x ∈ dps)

/-! ### Concrete graphs used as counterexamples and witnesses -/

/-- A two-node chain 0 ← 1 with no markers. -/
def envW1 : Env where
  univ := [0, 1]
  kind := fun _ => NodeKind.plain
  preds := fun i => if i = 0 then [1] else []
  closed := by decide

/-- A chain 0 ← 1 ← 2 ← 3 with a `ShardingRoundRobinDispatcher` at 2. -/
def envMark : Env where
  univ := [0, 1, 2, 3]
  kind := fun i => if i = 2 then NodeKind.roundRobinSharding else NodeKind.plain
  preds := fun i => if i = 0 then [1] else if i = 1 then [2] else if i = 2 then [3] else []
  closed := by decide

/-- Root 0 with three parents: 1 (replicable, over the shared replicable 4)
and 2, 3 (each non-replicable through its own placeholder 5 resp. 6, both
also sharing 4). -/
def envC2 : Env where
  univ := [0, 1, 2, 3, 4, 5, 6]
  kind := fun i => if i = 5 ∨ i = 6 then NodeKind.dummy else NodeKind.plain
  preds := fun i =>
    if i = 0 then [1, 2, 3]
    else if i = 1 then [4]
    else if i = 2 then [4, 5]
    else if i = 3 then [4, 6]
    else []
  closed := by decide

def gC2 : RootedGraph where
  env := envC2
  roots := [0]
  roots_mem := by decide

/-- A reference cycle 0 ⇄ 1 where 1 also depends on the placeholder 2. -/
def envC8 : Env where
  univ := [0, 1, 2]
  kind := fun i => if i = 2 then NodeKind.dummy else NodeKind.plain
  preds := fun i => if i = 0 then [1] else if i = 1 then [0, 2] else []
  closed := by decide

def gC8 : RootedGraph where
  env := envC8
  roots := [0]
  roots_mem := by decide

/-- A rooted-graph value with an empty top-level dictionary. -/
def gNoRoot : RootedGraph where
  env := envW1
  roots := []
  roots_mem := by intro s hs; cases hs

/-- Two independent one-edge chains a → c and b → c sharing the root c. -/
def chainEnv (a b c : Nat) : Env where
  univ := [a, b, c]
  kind := fun _ => NodeKind.plain
  preds := fun i => if i = c then [a, b] else []
  closed := by
    intro i _ j hj
    dsimp only at hj
    split at hj
    · rcases List.mem_cons.mp hj with rfl | hj
      · exact List.mem_cons_self _ _
      · rw [List.mem_singleton.mp hj]
        exact List.mem_cons_of_mem _ (List.mem_cons_self _ _)
    · exact absurd hj (List.not_mem_nil j)

/-- Root r with parents x and y, where x depends on the placeholder p and y
is replicable. -/
def siblingEnv (r x p y : Nat) : Env where
  univ := [r, x, p, y]
  kind := fun i => if i = p then NodeKind.dummy else NodeKind.plain
  preds := fun i => if i = r then [x, y] else if i = x then [p] else []
  closed := by
    intro i _ j hj
    dsimp only at hj
    split at hj
    · rcases List.mem_cons.mp hj with rfl | hj
      · exact List.mem_cons_of_mem _ (List.mem_cons_self _ _)
      · rw [List.mem_singleton.mp hj]
        exact List.mem_cons_of_mem _ (List.mem_cons_of_mem _
          (List.mem_cons_of_mem _ (List.mem_cons_self _ _)))
    · split at hj
      · rw [List.mem_singleton.mp hj]
        exact List.mem_cons_of_mem _ (List.mem_cons_of_mem _ (List.mem_cons_self _ _))
      · exact absurd hj (List.not_mem_nil j)

def siblingGraph (r x p y : Nat) : RootedGraph where
  env := siblingEnv r x p y
  roots := [r]
  roots_mem := by
    intro s hs
    rw [List.mem_singleton.mp hs]
    exact List.mem_cons_self _ _

/-! ### Association-list dictionary lemmas -/

theorem mkeys_cons {α : Type} (k : Nat) (v : α) (m : List (Nat × α)) :
    mkeys ((k, v) :: m) = k :: mkeys m := rfl

theorem mlookup_cons {α : Type} (k : Nat) (v : α) (m : List (Nat × α)) (i : Nat) :
    mlookup ((k, v) :: m) i = if i = k then some v else mlookup m i := rfl

theorem mlookup_eq_none_of_not_mem {α : Type} {m : List (Nat × α)} {i : Nat}
    (h : i ∉ mkeys m) : mlookup m i = none := by
  induction m with
  | nil => rfl
  | cons kv rest ih =>
    obtain ⟨k, v⟩ := kv
    rw [mkeys_cons] at h
    have hik : i ≠ k := fun hik => h (by rw [hik]; exact List.mem_cons_self k (mkeys rest))
    rw [mlookup_cons, if_neg hik]
    exact ih (fun hm => h (List.mem_cons_of_mem _ hm))

theorem mem_mkeys_of_mlookup {α : Type} {m : List (Nat × α)} {i : Nat} {v : α}
    (h : mlookup m i = some v) : i ∈ mkeys m := by
  by_contra hn
  rw [mlookup_eq_none_of_not_mem hn] at h
  exact Option.noConfusion h

theorem mlookup_isSome_of_mem_mkeys {α : Type} {m : List (Nat × α)} {i : Nat}
    (h : i ∈ mkeys m) : ∃ v, mlookup m i = some v := by
  cases hv : mlookup m i with
  | none =>
    induction m with
    | nil => exact absurd h (List.not_mem_nil i)
    | cons kv rest ih =>
      obtain ⟨k, v⟩ := kv
      rw [mlookup_cons] at hv
      rw [mkeys_cons] at h
      by_cases hik : i = k
      · rw [if_pos hik] at hv; exact Option.noConfusion hv
      · rw [if_neg hik] at hv
        rcases List.mem_cons.mp h with h | h
        · exact absurd h hik
        · exact ih h hv
  | some v => exact ⟨v, rfl⟩

/-! ### Lemmas on the flattening traversal (spec 4.1) -/

section DfsLemmas

variable (env : Env)

/-- The visited list only grows along the worklist fold. -/
theorem dfsListF_subset {step : Nat → List Nat → Option (List Nat)}
    (Hstep : ∀ j v v', step j v = some v' → ∀ x ∈ v, x ∈ v') :
    ∀ (l v v' : List Nat), dfsListF step l v = some v' → ∀ x ∈ v, x ∈ v' := by
  intro l
  induction l with
  | nil =>
    intro v v' h x hx
    simp only [dfsListF] at h
    injection h with h
    exact h ▸ hx
  | cons j rest ih =>
    intro v v' h x hx
    simp only [dfsListF] at h
    cases hs : step j v with
    | none => rw [hs] at h; exact Option.noConfusion h
    | some v1 =>
      rw [hs] at h
      exact ih v1 v' h x (Hstep j v v1 hs x hx)

/-- The visited list only grows along the traversal of one node. -/
theorem dfsNode_subset :
    ∀ (fuel i : Nat) (v v' : List Nat), dfsNode env fuel i v = some v' → ∀ x ∈ v, x ∈ v' := by
  intro fuel
  induction fuel with
  | zero => intro i v v' h; exact Option.noConfusion h
  | succ fuel ih =>
    intro i v v' h x hx
    simp only [dfsNode] at h
    by_cases hi : i ∈ v
    · rw [if_pos hi] at h
      injection h with h
      exact h ▸ hx
    · rw [if_neg hi] at h
      exact dfsListF_subset (fun j a b hb => ih j a b hb) (env.preds i) (v ++ [i]) v' h x
        (List.mem_append_left _ hx)

/-- Every node handed to the worklist fold ends up visited. -/
theorem dfsListF_mem {step : Nat → List Nat → Option (List Nat)}
    (Hsub : ∀ j v v', step j v = some v' → ∀ x ∈ v, x ∈ v')
    (Hmem : ∀ j v v', step j v = some v' → j ∈ v') :
    ∀ (l v v' : List Nat), dfsListF step l v = some v' → ∀ j ∈ l, j ∈ v' := by
  intro l
  induction l with
  | nil => intro v v' _ j hj; exact absurd hj (List.not_mem_nil j)
  | cons j0 rest ih =>
    intro v v' h j hj
    simp only [dfsListF] at h
    cases hs : step j0 v with
    | none => rw [hs] at h; exact Option.noConfusion h
    | some v1 =>
      rw [hs] at h
      rcases List.mem_cons.mp hj with rfl | hj
      · exact dfsListF_subset Hsub rest v1 v' h j (Hmem j v v1 hs)
      · exact ih v1 v' h j hj

/-- The traversed node itself is visited. -/
theorem dfsNode_mem :
    ∀ (fuel i : Nat) (v v' : List Nat), dfsNode env fuel i v = some v' → i ∈ v' := by
  intro fuel
  induction fuel with
  | zero => intro i v v' h; exact Option.noConfusion h
  | succ fuel _ =>
    intro i v v' h
    simp only [dfsNode] at h
    by_cases hi : i ∈ v
    · rw [if_pos hi] at h
      injection h with h
      exact h ▸ hi
    · rw [if_neg hi] at h
      exact dfsListF_subset (fun j a b hb => dfsNode_subset env fuel j a b hb)
        (env.preds i) (v ++ [i]) v' h i (List.mem_append_right _ (List.mem_singleton.mpr rfl))

/-- The worklist fold stays inside the heap. -/
theorem dfsListF_univ {step : Nat → List Nat → Option (List Nat)}
    (Hstep : ∀ j v v', step j v = some v' → j ∈ env.univ → (∀ x ∈ v, x ∈ env.univ) →
      ∀ x ∈ v', x ∈ env.univ) :
    ∀ (l v v' : List Nat), dfsListF step l v = some v' → (∀ j ∈ l, j ∈ env.univ) →
      (∀ x ∈ v, x ∈ env.univ) → ∀ x ∈ v', x ∈ env.univ := by
  intro l
  induction l with
  | nil =>
    intro v v' h _ hv
    simp only [dfsListF] at h
    injection h with h
    exact h ▸ hv
  | cons j rest ih =>
    intro v v' h hl hv
    simp only [dfsListF] at h
    cases hs : step j v with
    | none => rw [hs] at h; exact Option.noConfusion h
    | some v1 =>
      rw [hs] at h
      exact ih v1 v' h (fun x hx => hl x (List.mem_cons_of_mem _ hx))
        (Hstep j v v1 hs (hl j (List.mem_cons_self _ _)) hv)

/-- The traversal of one heap node stays inside the heap. -/
theorem dfsNode_univ :
    ∀ (fuel i : Nat) (v v' : List Nat), dfsNode env fuel i v = some v' → i ∈ env.univ →
      (∀ x ∈ v, x ∈ env.univ) → ∀ x ∈ v', x ∈ env.univ := by
  intro fuel
  induction fuel with
  | zero => intro i v v' h; exact Option.noConfusion h
  | succ fuel ih =>
    intro i v v' h hi hv
    simp only [dfsNode] at h
    by_cases hiv : i ∈ v
    · rw [if_pos hiv] at h
      injection h with h
      exact h ▸ hv
    · rw [if_neg hiv] at h
      refine dfsListF_univ env (fun j a b hb hj ha => ih j a b hb hj ha) (env.preds i)
        (v ++ [i]) v' h (fun j hj => env.closed i hi j hj) ?_
      intro x hx
      rcases List.mem_append.mp hx with hx | hx
      · exact hv x hx
      · rw [List.mem_singleton.mp hx]; exact hi

/-- Soundness of the worklist fold: a visited node was already visited or is
reachable from a worklist node. -/
theorem dfsListF_sound {step : Nat → List Nat → Option (List Nat)}
    (Hstep : ∀ j v v', step j v = some v' → ∀ x ∈ v', x ∈ v ∨ Reach env j x) :
    ∀ (l v v' : List Nat), dfsListF step l v = some v' →
      ∀ x ∈ v', x ∈ v ∨ ∃ j ∈ l, Reach env j x := by
  intro l
  induction l with
  | nil =>
    intro v v' h x hx
    simp only [dfsListF] at h
    injection h with h
    exact Or.inl (h ▸ hx)
  | cons j rest ih =>
    intro v v' h x hx
    simp only [dfsListF] at h
    cases hs : step j v with
    | none => rw [hs] at h; exact Option.noConfusion h
    | some v1 =>
      rw [hs] at h
      rcases ih v1 v' h x hx with hx1 | ⟨j1, hj1, hr⟩
      · rcases Hstep j v v1 hs x hx1 with hx2 | hr
        · exact Or.inl hx2
        · exact Or.inr ⟨j, List.mem_cons_self _ _, hr⟩
      · exact Or.inr ⟨j1, List.mem_cons_of_mem _ hj1, hr⟩

/-- Soundness of the traversal: a visited node was already visited or is
reachable from the traversed node. -/
theorem dfsNode_sound :
    ∀ (fuel i : Nat) (v v' : List Nat), dfsNode env fuel i v = some v' →
      ∀ x ∈ v', x ∈ v ∨ Reach env i x := by
  intro fuel
  induction fuel with
  | zero => intro i v v' h; exact Option.noConfusion h
  | succ fuel ih =>
    intro i v v' h x hx
    simp only [dfsNode] at h
    by_cases hiv : i ∈ v
    · rw [if_pos hiv] at h
      injection h with h
      exact Or.inl (h ▸ hx)
    · rw [if_neg hiv] at h
      rcases dfsListF_sound env (fun j a b hb => ih j a b hb) (env.preds i) (v ++ [i]) v' h x hx
        with hx1 | ⟨j, hj, hr⟩
      · rcases List.mem_append.mp hx1 with hx2 | hx2
        · exact Or.inl hx2
        · rw [List.mem_singleton.mp hx2]
          exact Or.inr Relation.ReflTransGen.refl
      · exact Or.inr (Relation.ReflTransGen.head hj hr)

/-- After a successful worklist fold, every node visited during the fold has
all its direct predecessors visited. -/
theorem dfsListF_closed {step : Nat → List Nat → Option (List Nat)}
    (Hsub : ∀ j v v', step j v = some v' → ∀ x ∈ v, x ∈ v')
    (Hstep : ∀ j v v', step j v = some v' → ∀ x ∈ v', x ∉ v → ∀ p ∈ env.preds x, p ∈ v') :
    ∀ (l v v' : List Nat), dfsListF step l v = some v' →
      ∀ x ∈ v', x ∉ v → ∀ p ∈ env.preds x, p ∈ v' := by
  intro l
  induction l with
  | nil =>
    intro v v' h x hx hxv
    simp only [dfsListF] at h
    injection h with h
    exact absurd (h ▸ hx) hxv
  | cons j rest ih =>
    intro v v' h x hx hxv p hp
    simp only [dfsListF] at h
    cases hs : step j v with
    | none => rw [hs] at h; exact Option.noConfusion h
    | some v1 =>
      rw [hs] at h
      by_cases hxv1 : x ∈ v1
      · exact dfsListF_subset Hsub rest v1 v' h p (Hstep j v v1 hs x hxv1 hxv p hp)
      · exact ih v1 v' h x hx hxv1 p hp

/-- After a successful traversal, every newly visited node has all its direct
predecessors visited. -/
theorem dfsNode_closed :
    ∀ (fuel i : Nat) (v v' : List Nat), dfsNode env fuel i v = some v' →
      ∀ x ∈ v', x ∉ v → ∀ p ∈ env.preds x, p ∈ v' := by
  intro fuel
  induction fuel with
  | zero => intro i v v' h; exact Option.noConfusion h
  | succ fuel ih =>
    intro i v v' h x hx hxv p hp
    simp only [dfsNode] at h
    by_cases hiv : i ∈ v
    · rw [if_pos hiv] at h
      injection h with h
      exact absurd (h ▸ hx) hxv
    · rw [if_neg hiv] at h
      by_cases hxi : x = i
      · subst hxi
        exact dfsListF_mem (fun j a b hb => dfsNode_subset env fuel j a b hb)
          (fun j a b hb => dfsNode_mem env fuel j a b hb) (env.preds x) (v ++ [x]) v' h p hp
      · refine dfsListF_closed env (fun j a b hb => dfsNode_subset env fuel j a b hb)
          (fun j a b hb => ih j a b hb) (env.preds i) (v ++ [i]) v' h x hx ?_ p hp
        intro hx1
        rcases List.mem_append.mp hx1 with hx2 | hx2
        · exact hxv hx2
        · exact hxi (List.mem_singleton.mp hx2)

theorem unseenCard_mono {env : Env} {v v' : List Nat} (h : ∀ x ∈ v, x ∈ v') :
    unseenCard env v' ≤ unseenCard env v := by
  apply Finset.card_le_card
  apply Finset.sdiff_subset_sdiff (le_refl _)
  intro x hx
  exact List.mem_toFinset.mpr (h x (List.mem_toFinset.mp hx))

theorem unseenCard_append_lt {env : Env} {v : List Nat} {i : Nat}
    (hi : i ∈ env.univ) (hiv : i ∉ v) :
    unseenCard env (v ++ [i]) < unseenCard env v := by
  apply Finset.card_lt_card
  constructor
  · apply Finset.sdiff_subset_sdiff (le_refl _)
    intro x hx
    rw [List.mem_toFinset] at hx ⊢
    exact List.mem_append_left _ hx
  · intro hsub
    have hmem : i ∈ env.univ.toFinset \ v.toFinset :=
      Finset.mem_sdiff.mpr ⟨List.mem_toFinset.mpr hi, fun hc => hiv (List.mem_toFinset.mp hc)⟩
    have hin := hsub hmem
    have h2 := (Finset.mem_sdiff.mp hin).2
    exact h2 (List.mem_toFinset.mpr (List.mem_append_right _ (List.mem_singleton.mpr rfl)))

/-- The worklist fold succeeds when each step succeeds below the fuel bound. -/
theorem dfsListF_total (F : Nat) {step : Nat → List Nat → Option (List Nat)}
    (Hsub : ∀ j v v', step j v = some v' → ∀ x ∈ v, x ∈ v')
    (Huniv : ∀ j v v', step j v = some v' → j ∈ env.univ → (∀ x ∈ v, x ∈ env.univ) →
      ∀ x ∈ v', x ∈ env.univ)
    (Htot : ∀ j v, j ∈ env.univ → (∀ x ∈ v, x ∈ env.univ) → unseenCard env v < F →
      ∃ v', step j v = some v') :
    ∀ (l v : List Nat), (∀ j ∈ l, j ∈ env.univ) → (∀ x ∈ v, x ∈ env.univ) →
      unseenCard env v < F → ∃ v', dfsListF step l v = some v' := by
  intro l
  induction l with
  | nil => intro v _ _ _; exact ⟨v, rfl⟩
  | cons j rest ih =>
    intro v hl hv hc
    obtain ⟨v1, hs⟩ := Htot j v (hl j (List.mem_cons_self _ _)) hv hc
    obtain ⟨v', hrest⟩ := ih v1 (fun x hx => hl x (List.mem_cons_of_mem _ hx))
      (Huniv j v v1 hs (hl j (List.mem_cons_self _ _)) hv)
      (lt_of_le_of_lt (unseenCard_mono (Hsub j v v1 hs)) hc)
    refine ⟨v', ?_⟩
    simp only [dfsListF]
    rw [hs]
    exact hrest

/-- The traversal succeeds on any heap node whenever the fuel exceeds the
number of unvisited heap nodes — in particular on graphs with reference
cycles. -/
theorem dfsNode_total :
    ∀ (fuel : Nat) (i : Nat) (v : List Nat), i ∈ env.univ → (∀ x ∈ v, x ∈ env.univ) →
      unseenCard env v < fuel → ∃ v', dfsNode env fuel i v = some v' := by
  intro fuel
  induction fuel with
  | zero => intro i v _ _ hc; exact absurd hc (Nat.not_lt_zero _)
  | succ fuel ih =>
    intro i v hi hv hc
    by_cases hiv : i ∈ v
    · exact ⟨v, by simp only [dfsNode]; rw [if_pos hiv]⟩
    · have hlt : unseenCard env (v ++ [i]) < fuel :=
        Nat.lt_of_lt_of_le (unseenCard_append_lt hi hiv) (Nat.lt_succ_iff.mp hc)
      have hv1 : ∀ x ∈ v ++ [i], x ∈ env.univ := by
        intro x hx
        rcases List.mem_append.mp hx with hx | hx
        · exact hv x hx
        · rw [List.mem_singleton.mp hx]; exact hi
      obtain ⟨v', hfold⟩ := dfsListF_total env fuel
        (fun j a b hb => dfsNode_subset env fuel j a b hb)
        (fun j a b hb hj ha => dfsNode_univ env fuel j a b hb hj ha)
        (fun j a hj ha hca => ih j a hj ha hca)
        (env.preds i) (v ++ [i]) (fun j hj => env.closed i hi j hj) hv1 hlt
      refine ⟨v', ?_⟩
      simp only [dfsNode]
      rw [if_neg hiv]
      exact hfold

/-- The standard fuel `env.univ.length + 1` is always sufficient. -/
theorem unseenCard_lt_fuel (env : Env) (v : List Nat) :
    unseenCard env v < env.univ.length + 1 := by
  apply Nat.lt_succ_of_le
  calc (env.univ.toFinset \ v.toFinset).card
      ≤ env.univ.toFinset.card := Finset.card_le_card Finset.sdiff_subset
    _ ≤ env.univ.length := env.univ.toFinset_card_le

/-- `listDps` succeeds on every heap node. -/
theorem listDps_total {env : Env} {r : Nat} (hr : r ∈ env.univ) :
    ∃ dps, listDps env r = some dps :=
  dfsNode_total env (env.univ.length + 1) r [] hr (by intro x hx; cases hx)
    (unseenCard_lt_fuel env [])

/-- `predClos` succeeds on every heap node. -/
theorem predClos_total {env : Env} {i : Nat} (hi : i ∈ env.univ) :
    ∃ l, predClos env i = some l := by
  apply dfsListF_total env (env.univ.length + 1)
    (fun j a b hb => dfsNode_subset env _ j a b hb)
    (fun j a b hb hj ha => dfsNode_univ env _ j a b hb hj ha)
    (fun j a hj ha _ => dfsNode_total env _ j a hj ha (unseenCard_lt_fuel env a))
    (env.preds i) [] (fun j hj => env.closed i hi j hj) (by intro x hx; cases hx)
    (unseenCard_lt_fuel env [])

end DfsLemmas

theorem unseenCard_cons_lt {env : Env} {ks : List Nat} {i : Nat}
    (hi : i ∈ env.univ) (hik : i ∉ ks) :
    unseenCard env (i :: ks) < unseenCard env ks := by
  apply Finset.card_lt_card
  constructor
  · apply Finset.sdiff_subset_sdiff (le_refl _)
    intro x hx
    rw [List.mem_toFinset] at hx ⊢
    exact List.mem_cons_of_mem _ hx
  · intro hsub
    have hmem : i ∈ env.univ.toFinset \ ks.toFinset :=
      Finset.mem_sdiff.mpr ⟨List.mem_toFinset.mpr hi, fun hc => hik (List.mem_toFinset.mp hc)⟩
    have hin := hsub hmem
    have h2 := (Finset.mem_sdiff.mp hin).2
    exact h2 (List.mem_toFinset.mpr (List.mem_cons_self _ _))

theorem not_mem_mkeys_of_mlookup_none {α : Type} {m : List (Nat × α)} {i : Nat}
    (h : mlookup m i = none) : i ∉ mkeys m := by
  intro hmem
  obtain ⟨v, hv⟩ := mlookup_isSome_of_mem_mkeys hmem
  rw [h] at hv
  exact Option.noConfusion hv

/-! ### Step equations for the LCA reduction -/

section LcaLemmas

variable (env : Env) (nrs : List Nat)

/-- Memo hit: the entry written before recursion short-circuits re-entry,
for cycles and diamonds alike (source lines 63-64). -/
theorem lcaAux_hit {memo : List (Nat × Option Nat)} {i : Nat} {v : Option Nat} (fuel : Nat)
    (h : mlookup memo i = some v) :
    lcaAux env nrs (fuel + 1) i memo = some (memo, v) := by
  simp only [lcaAux, h]

/-- A node of the non-replicable set records and returns itself
(source lines 65-67). -/
theorem lcaAux_self {memo : List (Nat × Option Nat)} {i : Nat} (fuel : Nat)
    (h : mlookup memo i = none) (h2 : i ∈ nrs) :
    lcaAux env nrs (fuel + 1) i memo = some ((i, some i) :: memo, some i) := by
  simp only [lcaAux, h, if_pos h2]

/-- An unmemoized node outside the set whose predecessor loop collected a
non-empty outcome list records `lcaCombine` of that list (source lines
68-86). -/
theorem lcaAux_fold_pos {memo m2 : List (Nat × Option Nat)} {i : Nat} {ps : List Nat} (fuel : Nat)
    (h : mlookup memo i = none) (h2 : i ∉ nrs)
    (hf : lcaFoldF (lcaAux env nrs fuel) (env.preds i) ((i, none) :: memo) [] = some (m2, ps))
    (hp : ps.length > 0) :
    lcaAux env nrs (fuel + 1) i memo
      = some ((i, some (lcaCombine i ps)) :: m2, some (lcaCombine i ps)) := by
  simp only [lcaAux, h, if_neg h2, hf, if_pos hp]

/-- An unmemoized node outside the set whose predecessor loop collected no
outcome keeps its provisional `none` entry (source lines 68-86). -/
theorem lcaAux_fold_none {memo m2 : List (Nat × Option Nat)} {i : Nat} {ps : List Nat} (fuel : Nat)
    (h : mlookup memo i = none) (h2 : i ∉ nrs)
    (hf : lcaFoldF (lcaAux env nrs fuel) (env.preds i) ((i, none) :: memo) [] = some (m2, ps))
    (hp : ¬ ps.length > 0) :
    lcaAux env nrs (fuel + 1) i memo = some (m2, none) := by
  simp only [lcaAux, h, if_neg h2, hf, if_neg hp]

/-- Fuel exhaustion is the only way the reduction fails. -/
theorem lcaAux_fold_exhaust {memo : List (Nat × Option Nat)} {i : Nat} (fuel : Nat)
    (h : mlookup memo i = none) (h2 : i ∉ nrs)
    (hf : lcaFoldF (lcaAux env nrs fuel) (env.preds i) ((i, none) :: memo) [] = none) :
    lcaAux env nrs (fuel + 1) i memo = none := by
  simp only [lcaAux, h, if_neg h2, hf]

/-- Case split on a successful call of `lcaAux` at positive fuel. -/
theorem lcaAux_cases {fuel i : Nat} {memo m' : List (Nat × Option Nat)} {r : Option Nat}
    (h : lcaAux env nrs (fuel + 1) i memo = some (m', r)) :
    (mlookup memo i = some r ∧ m' = memo)
    ∨ (mlookup memo i = none ∧ i ∈ nrs ∧ m' = (i, some i) :: memo ∧ r = some i)
    ∨ (mlookup memo i = none ∧ i ∉ nrs ∧
        ∃ m2 ps, lcaFoldF (lcaAux env nrs fuel) (env.preds i) ((i, none) :: memo) [] = some (m2, ps)
          ∧ ((ps.length > 0 ∧ m' = (i, some (lcaCombine i ps)) :: m2 ∧ r = some (lcaCombine i ps))
             ∨ (¬ ps.length > 0 ∧ m' = m2 ∧ r = none))) := by
  rcases Option.eq_none_or_eq_some (mlookup memo i) with hl | ⟨v, hl⟩
  case inr =>
    rw [lcaAux_hit env nrs fuel hl] at h
    injection h with h
    injection h with h1 h2
    exact Or.inl ⟨h2 ▸ hl, h1.symm⟩
  case inl =>
    by_cases hins : i ∈ nrs
    · rw [lcaAux_self env nrs fuel hl hins] at h
      injection h with h
      injection h with h1 h2
      exact Or.inr (Or.inl ⟨hl, hins, h1.symm, h2.symm⟩)
    · rcases Option.eq_none_or_eq_some
        (lcaFoldF (lcaAux env nrs fuel) (env.preds i) ((i, none) :: memo) []) with hf | ⟨⟨m2, ps⟩, hf⟩
      · rw [lcaAux_fold_exhaust env nrs fuel hl hins hf] at h
        exact Option.noConfusion h
      · by_cases hp : ps.length > 0
        · rw [lcaAux_fold_pos env nrs fuel hl hins hf hp] at h
          injection h with h
          injection h with h1 h2
          exact Or.inr (Or.inr ⟨hl, hins, m2, ps, hf, Or.inl ⟨hp, h1.symm, h2.symm⟩⟩)
        · rw [lcaAux_fold_none env nrs fuel hl hins hf hp] at h
          injection h with h
          injection h with h1 h2
          exact Or.inr (Or.inr ⟨hl, hins, m2, ps, hf, Or.inr ⟨hp, h1.symm, h2.symm⟩⟩)

/-- Case split on one step of the LCA predecessor loop. -/
theorem lcaFoldF_cons_cases
    {step : Nat → List (Nat × Option Nat) → Option (List (Nat × Option Nat) × Option Nat)}
    {j : Nat} {rest : List Nat} {memo m2 : List (Nat × Option Nat)} {acc ps : List Nat}
    (h : lcaFoldF step (j :: rest) memo acc = some (m2, ps)) :
    ∃ m1 r, step j memo = some (m1, r)
      ∧ lcaFoldF step rest m1 (match r with | some d => acc ++ [d] | none => acc) = some (m2, ps) := by
  rcases Option.eq_none_or_eq_some (step j memo) with hs | ⟨⟨m1, r⟩, hs⟩
  · simp only [lcaFoldF, hs] at h
    exact Option.noConfusion h
  · simp only [lcaFoldF, hs] at h
    exact ⟨m1, r, hs, h⟩

/-- The empty predecessor loop returns its inputs. -/
theorem lcaFoldF_nil_eq
    {step : Nat → List (Nat × Option Nat) → Option (List (Nat × Option Nat) × Option Nat)}
    {memo m2 : List (Nat × Option Nat)} {acc ps : List Nat}
    (h : lcaFoldF step [] memo acc = some (m2, ps)) : m2 = memo ∧ ps = acc := by
  simp only [lcaFoldF, Option.some.injEq, Prod.mk.injEq] at h
  exact ⟨h.1.symm, h.2.symm⟩

/-- The memo of the LCA predecessor loop only gains keys. -/
theorem lcaFoldF_keys
    {step : Nat → List (Nat × Option Nat) → Option (List (Nat × Option Nat) × Option Nat)}
    (Hstep : ∀ j m m' r, step j m = some (m', r) → ∀ x ∈ mkeys m, x ∈ mkeys m') :
    ∀ (l : List Nat) (memo m2 : List (Nat × Option Nat)) (acc ps : List Nat),
      lcaFoldF step l memo acc = some (m2, ps) → ∀ x ∈ mkeys memo, x ∈ mkeys m2 := by
  intro l
  induction l with
  | nil =>
    intro memo m2 acc ps h x hx
    obtain ⟨h1, _⟩ := lcaFoldF_nil_eq h
    exact h1 ▸ hx
  | cons j rest ih =>
    intro memo m2 acc ps h x hx
    obtain ⟨m1, r, hs, hrest⟩ := lcaFoldF_cons_cases h
    exact ih m1 m2 _ ps hrest x (Hstep j memo m1 r hs x hx)

/-- The memo of `_get_lca_from_graph` only gains keys. -/
theorem lcaAux_keys :
    ∀ (fuel i : Nat) (memo m' : List (Nat × Option Nat)) (r : Option Nat),
      lcaAux env nrs fuel i memo = some (m', r) → ∀ x ∈ mkeys memo, x ∈ mkeys m' := by
  intro fuel
  induction fuel with
  | zero => intro i memo m' r h; exact Option.noConfusion h
  | succ fuel ih =>
    intro i memo m' r h x hx
    rcases lcaAux_cases env nrs h with ⟨_, rfl⟩ | ⟨_, _, rfl, _⟩
      | ⟨_, _, m2, ps, hf, hcase⟩
    · exact hx
    · exact List.mem_cons_of_mem _ hx
    · have hx2 : x ∈ mkeys m2 :=
        lcaFoldF_keys (fun j a b c hc => ih j a b c hc) (env.preds i)
          ((i, none) :: memo) m2 [] ps hf x (List.mem_cons_of_mem _ hx)
      rcases hcase with ⟨_, rfl, _⟩ | ⟨_, rfl, _⟩
      · exact List.mem_cons_of_mem _ hx2
      · exact hx2

/-- The memo keys of the LCA predecessor loop stay inside the heap. -/
theorem lcaFoldF_keys_univ
    {step : Nat → List (Nat × Option Nat) → Option (List (Nat × Option Nat) × Option Nat)}
    (Hstep : ∀ j m m' r, step j m = some (m', r) → j ∈ env.univ →
      (∀ x ∈ mkeys m, x ∈ env.univ) → ∀ x ∈ mkeys m', x ∈ env.univ) :
    ∀ (l : List Nat) (memo m2 : List (Nat × Option Nat)) (acc ps : List Nat),
      lcaFoldF step l memo acc = some (m2, ps) → (∀ j ∈ l, j ∈ env.univ) →
      (∀ x ∈ mkeys memo, x ∈ env.univ) → ∀ x ∈ mkeys m2, x ∈ env.univ := by
  intro l
  induction l with
  | nil =>
    intro memo m2 acc ps h _ hm x hx
    obtain ⟨h1, _⟩ := lcaFoldF_nil_eq h
    exact hm x (h1 ▸ hx)
  | cons j rest ih =>
    intro memo m2 acc ps h hl hm x hx
    obtain ⟨m1, r, hs, hrest⟩ := lcaFoldF_cons_cases h
    exact ih m1 m2 _ ps hrest (fun a ha => hl a (List.mem_cons_of_mem _ ha))
      (Hstep j memo m1 r hs (hl j (List.mem_cons_self _ _)) hm) x hx

/-- The memo keys of `_get_lca_from_graph` stay inside the heap. -/
theorem lcaAux_keys_univ :
    ∀ (fuel i : Nat) (memo m' : List (Nat × Option Nat)) (r : Option Nat),
      lcaAux env nrs fuel i memo = some (m', r) → i ∈ env.univ →
      (∀ x ∈ mkeys memo, x ∈ env.univ) → ∀ x ∈ mkeys m', x ∈ env.univ := by
  intro fuel
  induction fuel with
  | zero => intro i memo m' r h; exact Option.noConfusion h
  | succ fuel ih =>
    intro i memo m' r h hi hm x hx
    rcases lcaAux_cases env nrs h with ⟨_, rfl⟩ | ⟨_, _, rfl, _⟩
      | ⟨_, _, m2, ps, hf, hcase⟩
    · exact hm x hx
    · rcases List.mem_cons.mp hx with rfl | hx
      · exact hi
      · exact hm x hx
    · have hm2 : ∀ y ∈ mkeys m2, y ∈ env.univ := by
        refine lcaFoldF_keys_univ env (fun j a b c hc hj ha => ih j a b c hc hj ha)
          (env.preds i) ((i, none) :: memo) m2 [] ps hf
          (fun j hj => env.closed i hi j hj) ?_
        intro y hy
        rcases List.mem_cons.mp hy with rfl | hy
        · exact hi
        · exact hm y hy
      rcases hcase with ⟨_, rfl, _⟩ | ⟨_, rfl, _⟩
      · rcases List.mem_cons.mp hx with rfl | hx
        · exact hi
        · exact hm2 x hx
      · exact hm2 x hx

/-- The LCA predecessor loop succeeds when each step succeeds below the fuel
bound. -/
theorem lcaFoldF_total (F : Nat)
    {step : Nat → List (Nat × Option Nat) → Option (List (Nat × Option Nat) × Option Nat)}
    (Hkeys : ∀ j m m' r, step j m = some (m', r) → ∀ x ∈ mkeys m, x ∈ mkeys m')
    (Huniv : ∀ j m m' r, step j m = some (m', r) → j ∈ env.univ →
      (∀ x ∈ mkeys m, x ∈ env.univ) → ∀ x ∈ mkeys m', x ∈ env.univ)
    (Htot : ∀ j m, j ∈ env.univ → (∀ x ∈ mkeys m, x ∈ env.univ) →
      unseenCard env (mkeys m) < F → ∃ out, step j m = some out) :
    ∀ (l : List Nat) (memo : List (Nat × Option Nat)) (acc : List Nat),
      (∀ j ∈ l, j ∈ env.univ) → (∀ x ∈ mkeys memo, x ∈ env.univ) →
      unseenCard env (mkeys memo) < F →
      ∃ out, lcaFoldF step l memo acc = some out := by
  intro l
  induction l with
  | nil => intro memo acc _ _ _; exact ⟨(memo, acc), rfl⟩
  | cons j rest ih =>
    intro memo acc hl hm hc
    obtain ⟨⟨m1, r⟩, hs⟩ := Htot j memo (hl j (List.mem_cons_self _ _)) hm hc
    obtain ⟨out, hrest⟩ := ih m1 _ (fun a ha => hl a (List.mem_cons_of_mem _ ha))
      (Huniv j memo m1 r hs (hl j (List.mem_cons_self _ _)) hm)
      (lt_of_le_of_lt (unseenCard_mono (Hkeys j memo m1 r hs)) hc)
    refine ⟨out, ?_⟩
    simp only [lcaFoldF, hs]
    exact hrest

/-- `_get_lca_from_graph` succeeds whenever the fuel exceeds the number of
unmemoized heap nodes — on every graph, including graphs with reference
cycles, because the provisional entry is written before the recursion. -/
theorem lcaAux_total :
    ∀ (fuel i : Nat) (memo : List (Nat × Option Nat)), i ∈ env.univ →
      (∀ x ∈ mkeys memo, x ∈ env.univ) → unseenCard env (mkeys memo) < fuel →
      ∃ out, lcaAux env nrs fuel i memo = some out := by
  intro fuel
  induction fuel with
  | zero => intro i memo _ _ hc; exact absurd hc (Nat.not_lt_zero _)
  | succ fuel ih =>
    intro i memo hi hm hc
    rcases Option.eq_none_or_eq_some (mlookup memo i) with hl | ⟨v, hl⟩
    case succ.inr.intro => exact ⟨(memo, v), lcaAux_hit env nrs fuel hl⟩
    case succ.inl =>
      by_cases hins : i ∈ nrs
      · exact ⟨((i, some i) :: memo, some i), lcaAux_self env nrs fuel hl hins⟩
      · have hik : i ∉ mkeys memo := not_mem_mkeys_of_mlookup_none hl
        have hc1 : unseenCard env (mkeys ((i, (none : Option Nat)) :: memo)) < fuel := by
          have := @unseenCard_cons_lt env (mkeys memo) i hi hik
          have h2 := Nat.lt_succ_iff.mp hc
          rw [mkeys_cons]
          omega
        have hm1 : ∀ x ∈ mkeys ((i, (none : Option Nat)) :: memo), x ∈ env.univ := by
          intro x hx
          rcases List.mem_cons.mp hx with rfl | hx
          · exact hi
          · exact hm x hx
        obtain ⟨⟨m2, ps⟩, hf⟩ := lcaFoldF_total env fuel
          (fun j a b c hc => lcaAux_keys env nrs fuel j a b c hc)
          (fun j a b c hc hj ha => lcaAux_keys_univ env nrs fuel j a b c hc hj ha)
          (fun j a hj ha hca => ih j a hj ha hca)
          (env.preds i) ((i, none) :: memo) [] (fun j hj => env.closed i hi j hj) hm1 hc1
        by_cases hp : ps.length > 0
        · exact ⟨_, lcaAux_fold_pos env nrs fuel hl hins hf hp⟩
        · exact ⟨_, lcaAux_fold_none env nrs fuel hl hins hf hp⟩

end LcaLemmas

/-! ### Reachability correctness of the modelled flatten traversal -/

/-- A predecessor-closed set of nodes is closed under reachability. -/
theorem reach_closed_complete {env : Env} {V : List Nat}
    (hc : ∀ x ∈ V, ∀ p ∈ env.preds x, p ∈ V) :
    ∀ {j x : Nat}, j ∈ V → Reach env j x → x ∈ V := by
  intro j x hj h
  induction h with
  | refl => exact hj
  | tail _ hstep ih => exact hc _ ih _ hstep

/-- Everything `listDps` returns is reachable from the root. -/
theorem listDps_sound {env : Env} {r : Nat} {V : List Nat} (h : listDps env r = some V) :
    ∀ x ∈ V, Reach env r x := by
  intro x hx
  rcases dfsNode_sound env _ r [] V h x hx with hc | hr
  · exact absurd hc (List.not_mem_nil x)
  · exact hr

/-- Everything reachable from the root is returned by `listDps`. -/
theorem listDps_complete {env : Env} {r : Nat} {V : List Nat} (h : listDps env r = some V) :
    ∀ x, Reach env r x → x ∈ V := by
  intro x hx
  have hroot : r ∈ V := dfsNode_mem env _ r [] V h
  have hcl : ∀ y ∈ V, ∀ p ∈ env.preds y, p ∈ V := by
    intro y hy p hp
    exact dfsNode_closed env _ r [] V h y hy (List.not_mem_nil y) p hp
  exact reach_closed_complete hcl hroot hx

/-- Everything `predClos` returns is reachable from a direct predecessor. -/
theorem predClos_sound {env : Env} {d : Nat} {L : List Nat} (h : predClos env d = some L) :
    ∀ x ∈ L, ∃ j ∈ env.preds d, Reach env j x := by
  intro x hx
  rcases dfsListF_sound env (fun j a b hb => dfsNode_sound env _ j a b hb)
    (env.preds d) [] L h x hx with hc | hj
  · exact absurd hc (List.not_mem_nil x)
  · exact hj

/-- Everything reachable from a direct predecessor is in `predClos`. -/
theorem predClos_complete {env : Env} {d : Nat} {L : List Nat} (h : predClos env d = some L) :
    ∀ j ∈ env.preds d, ∀ x, Reach env j x → x ∈ L := by
  intro j hj x hx
  have hjL : j ∈ L :=
    dfsListF_mem (fun a b c hc => dfsNode_subset env _ a b c hc)
      (fun a b c hc => dfsNode_mem env _ a b c hc) (env.preds d) [] L h j hj
  have hcl : ∀ y ∈ L, ∀ p ∈ env.preds y, p ∈ L := by
    intro y hy p hp
    exact dfsListF_closed env (fun a b c hc => dfsNode_subset env _ a b c hc)
      (fun a b c hc => dfsNode_closed env _ a b c hc)
      (env.preds d) [] L h y hy (List.not_mem_nil y) p hp
  exact reach_closed_complete hcl hjL hx

/-- `predClos` is closed under reachability. -/
theorem predClos_reach_closed {env : Env} {d : Nat} {L : List Nat} (h : predClos env d = some L) :
    ∀ y ∈ L, ∀ z, Reach env y z → z ∈ L := by
  intro y hy z hz
  obtain ⟨j, hj, hjy⟩ := predClos_sound h y hy
  exact predClos_complete h j hj z (Relation.ReflTransGen.trans hjy hz)

/-! ### The marking loop: totality and characterization -/

/-- The marking loop succeeds on any list of heap nodes. -/
theorem markFold_total {env : Env} :
    ∀ (dps acc : List Nat), (∀ d ∈ dps, d ∈ env.univ) →
      ∃ out, markFold env dps acc = some out := by
  intro dps
  induction dps with
  | nil => intro acc _; exact ⟨acc, rfl⟩
  | cons d rest ih =>
    intro acc hd
    by_cases hmem : d ∈ acc
    · obtain ⟨out, hout⟩ := ih acc (fun a ha => hd a (List.mem_cons_of_mem _ ha))
      exact ⟨out, by simp only [markFold, if_pos hmem]; exact hout⟩
    · by_cases hk : env.kind d = NodeKind.roundRobinSharding
      · obtain ⟨L, hL⟩ := predClos_total (hd d (List.mem_cons_self _ _))
        obtain ⟨out, hout⟩ := ih (acc ++ L) (fun a ha => hd a (List.mem_cons_of_mem _ ha))
        exact ⟨out, by simp only [markFold, if_neg hmem, if_pos hk, hL]; exact hout⟩
      · obtain ⟨out, hout⟩ := ih acc (fun a ha => hd a (List.mem_cons_of_mem _ ha))
        exact ⟨out, by simp only [markFold, if_neg hmem, if_neg hk]; exact hout⟩

/-- With no `ShardingRoundRobinDispatcher` in the scanned list, the marking
loop adds nothing. -/
theorem markFold_no_marker {env : Env} :
    ∀ (dps acc : List Nat), (∀ d ∈ dps, env.kind d ≠ NodeKind.roundRobinSharding) →
      markFold env dps acc = some acc := by
  intro dps
  induction dps with
  | nil => intro acc _; rfl
  | cons d rest ih =>
    intro acc hd
    by_cases hmem : d ∈ acc
    · simp only [markFold, if_pos hmem]
      exact ih acc (fun a ha => hd a (List.mem_cons_of_mem _ ha))
    · simp only [markFold, if_neg hmem, if_neg (hd d (List.mem_cons_self _ _))]
      exact ih acc (fun a ha => hd a (List.mem_cons_of_mem _ ha))

/-- Full characterization of the marking loop: the output is the input
accumulator together with the predecessor closures of the scanned
`ShardingRoundRobinDispatcher` nodes.  The skip of already-recorded nodes
(source lines 50-51) loses nothing because the accumulator is closed under
reachability. -/
theorem markFold_spec {env : Env} :
    ∀ (dps acc out : List Nat), markFold env dps acc = some out →
      (∀ y ∈ acc, ∀ z, Reach env y z → z ∈ acc) →
      ((∀ y ∈ out, y ∈ acc ∨ ∃ d ∈ dps, env.kind d = NodeKind.roundRobinSharding ∧
          ∃ j ∈ env.preds d, Reach env j y)
       ∧ (∀ d ∈ dps, env.kind d = NodeKind.roundRobinSharding →
          ∀ j ∈ env.preds d, ∀ z, Reach env j z → z ∈ out)
       ∧ (∀ y ∈ acc, y ∈ out)
       ∧ (∀ y ∈ out, ∀ z, Reach env y z → z ∈ out)) := by
  intro dps
  induction dps with
  | nil =>
    intro acc out h hcl
    injection h with h
    subst h
    exact ⟨fun y hy => Or.inl hy, fun d hd => absurd hd (List.not_mem_nil d),
      fun y hy => hy, hcl⟩
  | cons d rest ih =>
    intro acc out h hcl
    by_cases hmem : d ∈ acc
    · simp only [markFold, if_pos hmem] at h
      obtain ⟨hsound, hcomp, hgrow, hclo⟩ := ih acc out h hcl
      refine ⟨?_, ?_, hgrow, hclo⟩
      · intro y hy
        rcases hsound y hy with hy1 | ⟨d1, hd1, hk1, hj1⟩
        · exact Or.inl hy1
        · exact Or.inr ⟨d1, List.mem_cons_of_mem _ hd1, hk1, hj1⟩
      · intro d1 hd1 hk1 j hj z hz
        rcases List.mem_cons.mp hd1 with rfl | hd1
        · exact hgrow z (hcl d1 hmem z (Relation.ReflTransGen.head hj hz))
        · exact hcomp d1 hd1 hk1 j hj z hz
    · by_cases hk : env.kind d = NodeKind.roundRobinSharding
      · simp only [markFold, if_neg hmem, if_pos hk] at h
        rcases Option.eq_none_or_eq_some (predClos env d) with hL | ⟨L, hL⟩
        · rw [hL] at h; exact Option.noConfusion h
        · rw [hL] at h
          have hcl2 : ∀ y ∈ acc ++ L, ∀ z, Reach env y z → z ∈ acc ++ L := by
            intro y hy z hz
            rcases List.mem_append.mp hy with hy1 | hy1
            · exact List.mem_append_left _ (hcl y hy1 z hz)
            · exact List.mem_append_right _ (predClos_reach_closed hL y hy1 z hz)
          obtain ⟨hsound, hcomp, hgrow, hclo⟩ := ih (acc ++ L) out h hcl2
          refine ⟨?_, ?_, fun y hy => hgrow y (List.mem_append_left _ hy), hclo⟩
          · intro y hy
            rcases hsound y hy with hy1 | ⟨d1, hd1, hk1, hj1⟩
            · rcases List.mem_append.mp hy1 with hy2 | hy2
              · exact Or.inl hy2
              · obtain ⟨j, hj, hjy⟩ := predClos_sound hL y hy2
                exact Or.inr ⟨d, List.mem_cons_self _ _, hk, j, hj, hjy⟩
            · exact Or.inr ⟨d1, List.mem_cons_of_mem _ hd1, hk1, hj1⟩
          · intro d1 hd1 hk1 j hj z hz
            rcases List.mem_cons.mp hd1 with rfl | hd1
            · exact hgrow z (List.mem_append_right _ (predClos_complete hL j hj z hz))
            · exact hcomp d1 hd1 hk1 j hj z hz
      · simp only [markFold, if_neg hmem, if_neg hk] at h
        obtain ⟨hsound, hcomp, hgrow, hclo⟩ := ih acc out h hcl
        refine ⟨?_, ?_, hgrow, hclo⟩
        · intro y hy
          rcases hsound y hy with hy1 | ⟨d1, hd1, hk1, hj1⟩
          · exact Or.inl hy1
          · exact Or.inr ⟨d1, List.mem_cons_of_mem _ hd1, hk1, hj1⟩
        · intro d1 hd1 hk1 j hj z hz
          rcases List.mem_cons.mp hd1 with rfl | hd1
          · exact absurd hk1 hk
          · exact hcomp d1 hd1 hk1 j hj z hz

/-- Characterization of the non-replicable set (with the traversals modelled
from the spec): a node is recorded exactly when it is a transitive
predecessor of some reachable `ShardingRoundRobinDispatcher` node. -/
theorem nonReplicableSet_spec {env : Env} {r : Nat} (hr : r ∈ env.univ) :
    ∃ nrs, nonReplicableSet env r = some nrs ∧
      ∀ i, (i ∈ nrs ↔ ∃ m, Reach env r m ∧ env.kind m = NodeKind.roundRobinSharding ∧
        ∃ j ∈ env.preds m, Reach env j i) := by
  obtain ⟨dps, hdps⟩ := listDps_total hr
  have hdpsu : ∀ d ∈ dps, d ∈ env.univ := by
    intro d hd
    exact dfsNode_univ env _ r [] dps hdps hr (by intro x hx; cases hx) d hd
  obtain ⟨out, hout⟩ := markFold_total dps [] hdpsu
  obtain ⟨hsound, hcomp, _, _⟩ := markFold_spec dps [] out hout
    (by intro y hy; exact absurd hy (List.not_mem_nil y))
  refine ⟨out, ?_, ?_⟩
  · simp only [nonReplicableSet, hdps]
    exact hout
  · intro i
    constructor
    · intro hi
      rcases hsound i hi with hc | ⟨d, hd, hk, hj⟩
      · exact absurd hc (List.not_mem_nil i)
      · exact ⟨d, listDps_sound hdps d hd, hk, hj⟩
    · rintro ⟨m, hrm, hk, j, hj, hji⟩
      exact hcomp m (listDps_complete hdps m hrm) hk j hj i hji

/-! ### The LCA reduction with an empty non-replicable set -/

theorem allNoneMemo_cons {memo : List (Nat × Option Nat)} {i : Nat}
    (h : AllNoneMemo memo) : AllNoneMemo ((i, none) :: memo) := by
  intro k v hk
  rw [mlookup_cons] at hk
  by_cases hki : k = i
  · rw [if_pos hki] at hk
    injection hk with hk
    exact hk.symm
  · rw [if_neg hki] at hk
    exact h k v hk

/-- With an empty non-replicable set, the predecessor loop collects nothing
and keeps every memo value `none`. -/
theorem lcaFoldF_allNone
    {step : Nat → List (Nat × Option Nat) → Option (List (Nat × Option Nat) × Option Nat)}
    (Hstep : ∀ j m m' r, step j m = some (m', r) → AllNoneMemo m → AllNoneMemo m' ∧ r = none) :
    ∀ (l : List Nat) (memo m2 : List (Nat × Option Nat)) (acc ps : List Nat),
      lcaFoldF step l memo acc = some (m2, ps) → AllNoneMemo memo →
      AllNoneMemo m2 ∧ ps = acc := by
  intro l
  induction l with
  | nil =>
    intro memo m2 acc ps h hall
    obtain ⟨h1, h2⟩ := lcaFoldF_nil_eq h
    exact ⟨h1 ▸ hall, h2⟩
  | cons j rest ih =>
    intro memo m2 acc ps h hall
    obtain ⟨m1, r, hs, hrest⟩ := lcaFoldF_cons_cases h
    obtain ⟨hall1, rfl⟩ := Hstep j memo m1 r hs hall
    exact ih m1 m2 acc ps hrest hall1

/-- With an empty non-replicable set, `_get_lca_from_graph` returns `none`
for every node. -/
theorem lcaAux_allNone (env : Env) :
    ∀ (fuel i : Nat) (memo m' : List (Nat × Option Nat)) (r : Option Nat),
      lcaAux env [] fuel i memo = some (m', r) → AllNoneMemo memo →
      AllNoneMemo m' ∧ r = none := by
  intro fuel
  induction fuel with
  | zero => intro i memo m' r h; exact Option.noConfusion h
  | succ fuel ih =>
    intro i memo m' r h hall
    rcases lcaAux_cases env [] h with ⟨hl, rfl⟩ | ⟨_, hins, _, _⟩
      | ⟨_, _, m2, ps, hf, hcase⟩
    · exact ⟨hall, hall i r hl⟩
    · exact absurd hins (List.not_mem_nil i)
    · obtain ⟨hall2, rfl⟩ := lcaFoldF_allNone (fun j a b c hc ha => ih j a b c hc ha)
        (env.preds i) ((i, none) :: memo) m2 [] ps hf (allNoneMemo_cons hall)
      rcases hcase with ⟨hp, _, _⟩ | ⟨_, rfl, rfl⟩
      · exact absurd hp (by simp)
      · exact ⟨hall2, rfl⟩

/-! ### Composition lemmas for `find_lca_non_replicable_dp` -/

/-- On a single-rooted graph, the full LCA pipeline succeeds — on every
graph, including graphs with reference cycles. -/
theorem find_lca_ok {g : RootedGraph} {r : Nat} (h : g.roots = [r]) :
    ∃ v, find_lca_non_replicable_dp g = Except.ok v := by
  have hr : r ∈ g.env.univ := g.roots_mem r (h ▸ List.mem_cons_self _ _)
  obtain ⟨nrs, hnrs, _⟩ := nonReplicableSet_spec hr
  obtain ⟨⟨m', res⟩, hout⟩ := lcaAux_total g.env nrs (g.env.univ.length + 1) r []
    hr (by intro x hx; cases hx) (unseenCard_lt_fuel g.env (mkeys []))
  refine ⟨res, ?_⟩
  simp only [find_lca_non_replicable_dp, h, hnrs, hout]

/-- On a single-rooted graph whose heap contains no
`ShardingRoundRobinDispatcher`, the full LCA pipeline returns `none`. -/
theorem find_lca_no_marker {g : RootedGraph} {r : Nat} (h : g.roots = [r])
    (hnm : ∀ i ∈ g.env.univ, g.env.kind i ≠ NodeKind.roundRobinSharding) :
    find_lca_non_replicable_dp g = Except.ok none := by
  have hr : r ∈ g.env.univ := g.roots_mem r (h ▸ List.mem_cons_self _ _)
  obtain ⟨dps, hdps⟩ := listDps_total hr
  have hdpsu : ∀ d ∈ dps, d ∈ g.env.univ := by
    intro d hd
    exact dfsNode_univ g.env _ r [] dps hdps hr (by intro x hx; cases hx) d hd
  have hmark : markFold g.env dps [] = some [] :=
    markFold_no_marker dps [] (fun d hd => hnm d (hdpsu d hd))
  have hnrs : nonReplicableSet g.env r = some [] := by
    simp only [nonReplicableSet, hdps]
    exact hmark
  obtain ⟨⟨m', res⟩, hout⟩ := lcaAux_total g.env [] (g.env.univ.length + 1) r []
    hr (by intro x hx; cases hx) (unseenCard_lt_fuel g.env (mkeys []))
  obtain ⟨_, rfl⟩ := lcaAux_allNone g.env _ r [] m' res hout
    (by intro k v hk; exact Option.noConfusion hk)
  simp only [find_lca_non_replicable_dp, h, hnrs, hout]

/-! ### Step equations for the branch extraction -/

section BranchLemmas

variable (env : Env)

/-- Memo hit: the entry written before recursion short-circuits re-entry,
for cycles and diamonds alike (source lines 104-105). -/
theorem branchAux_hit {memo : List (Nat × Bool)} {dps : List Nat} {i : Nat} {b : Bool}
    (fuel : Nat) (h : mlookup memo i = some b) :
    branchAux env (fuel + 1) i memo dps = some (memo, dps, b) := by
  simp only [branchAux, h]

/-- A `_DummyIterDataPipe` records and returns `false` without touching the
result list (source lines 106-108). -/
theorem branchAux_dummy {memo : List (Nat × Bool)} {dps : List Nat} {i : Nat}
    (fuel : Nat) (h : mlookup memo i = none) (hk : env.kind i = NodeKind.dummy) :
    branchAux env (fuel + 1) i memo dps = some ((i, false) :: memo, dps, false) := by
  simp only [branchAux, h, if_pos hk]

/-- An ordinary node whose entry survived the child loop as `true` returns
`true` and appends nothing (source lines 109-119). -/
theorem branchAux_fold_true {memo memo2 : List (Nat × Bool)} {dps dps2 : List Nat} {i : Nat}
    (fuel : Nat) (h : mlookup memo i = none) (hk : ¬ env.kind i = NodeKind.dummy)
    (hf : branchFoldF i (branchAux env fuel) (env.preds i) ((i, true) :: memo) dps
      = some (memo2, dps2))
    (hsb : (mlookup memo2 i).getD true = true) :
    branchAux env (fuel + 1) i memo dps = some (memo2, dps2, true) := by
  simp only [branchAux, h, if_neg hk, hf, hsb, if_true]

/-- An ordinary node whose entry was downgraded to `false` by the child loop
appends every direct predecessor whose entry is `true` and returns `false`
(source lines 114-119). -/
theorem branchAux_fold_false {memo memo2 : List (Nat × Bool)} {dps dps2 : List Nat} {i : Nat}
    (fuel : Nat) (h : mlookup memo i = none) (hk : ¬ env.kind i = NodeKind.dummy)
    (hf : branchFoldF i (branchAux env fuel) (env.preds i) ((i, true) :: memo) dps
      = some (memo2, dps2))
    (hsb : (mlookup memo2 i).getD true = false) :
    branchAux env (fuel + 1) i memo dps
      = some (memo2, dps2 ++ (env.preds i).filter (fun j => (mlookup memo2 j).getD false),
          false) := by
  simp only [branchAux, h, if_neg hk, hf, hsb, Bool.false_eq_true, if_false]

/-- Fuel exhaustion is the only way the branch recursion fails. -/
theorem branchAux_fold_exhaust {memo : List (Nat × Bool)} {dps : List Nat} {i : Nat}
    (fuel : Nat) (h : mlookup memo i = none) (hk : ¬ env.kind i = NodeKind.dummy)
    (hf : branchFoldF i (branchAux env fuel) (env.preds i) ((i, true) :: memo) dps = none) :
    branchAux env (fuel + 1) i memo dps = none := by
  simp only [branchAux, h, if_neg hk, hf]

/-- Case split on one step of the branch child loop. -/
theorem branchFoldF_cons_cases {selfId : Nat}
    {step : Nat → List (Nat × Bool) → List Nat → Option (List (Nat × Bool) × List Nat × Bool)}
    {j : Nat} {rest : List Nat} {memo m2 : List (Nat × Bool)} {dps d2 : List Nat}
    (h : branchFoldF selfId step (j :: rest) memo dps = some (m2, d2)) :
    ∃ m1 d1 b, step j memo dps = some (m1, d1, b)
      ∧ branchFoldF selfId step rest (if b then m1 else (selfId, false) :: m1) d1
          = some (m2, d2) := by
  rcases Option.eq_none_or_eq_some (step j memo dps) with hs | ⟨⟨m1, d1, b⟩, hs⟩
  · simp only [branchFoldF, hs] at h
    exact Option.noConfusion h
  · simp only [branchFoldF, hs] at h
    exact ⟨m1, d1, b, hs, h⟩

/-- The empty child loop returns its inputs. -/
theorem branchFoldF_nil_eq {selfId : Nat}
    {step : Nat → List (Nat × Bool) → List Nat → Option (List (Nat × Bool) × List Nat × Bool)}
    {memo m2 : List (Nat × Bool)} {dps d2 : List Nat}
    (h : branchFoldF selfId step [] memo dps = some (m2, d2)) : m2 = memo ∧ d2 = dps := by
  simp only [branchFoldF, Option.some.injEq, Prod.mk.injEq] at h
  exact ⟨h.1.symm, h.2.symm⟩

/-- The memo of the branch child loop only gains keys. -/
theorem branchFoldF_keys {selfId : Nat}
    {step : Nat → List (Nat × Bool) → List Nat → Option (List (Nat × Bool) × List Nat × Bool)}
    (Hstep : ∀ j m d m' d' b, step j m d = some (m', d', b) → ∀ x ∈ mkeys m, x ∈ mkeys m') :
    ∀ (l : List Nat) (memo m2 : List (Nat × Bool)) (dps d2 : List Nat),
      branchFoldF selfId step l memo dps = some (m2, d2) → ∀ x ∈ mkeys memo, x ∈ mkeys m2 := by
  intro l
  induction l with
  | nil =>
    intro memo m2 dps d2 h x hx
    obtain ⟨h1, _⟩ := branchFoldF_nil_eq h
    exact h1 ▸ hx
  | cons j rest ih =>
    intro memo m2 dps d2 h x hx
    obtain ⟨m1, d1, b, hs, hrest⟩ := branchFoldF_cons_cases h
    have hx1 : x ∈ mkeys m1 := Hstep j memo dps m1 d1 b hs x hx
    cases b with
    | true => exact ih m1 m2 d1 d2 (by simpa using hrest) x hx1
    | false =>
      exact ih ((selfId, false) :: m1) m2 d1 d2 (by simpa using hrest) x
        (List.mem_cons_of_mem _ hx1)

/-- The memo of `_is_replicable_graph` only gains keys. -/
theorem branchAux_keys :
    ∀ (fuel i : Nat) (memo m' : List (Nat × Bool)) (dps d' : List Nat) (b : Bool),
      branchAux env fuel i memo dps = some (m', d', b) → ∀ x ∈ mkeys memo, x ∈ mkeys m' := by
  intro fuel
  induction fuel with
  | zero => intro i memo m' dps d' b h; exact Option.noConfusion h
  | succ fuel ih =>
    intro i memo m' dps d' b h x hx
    rcases Option.eq_none_or_eq_some (mlookup memo i) with hl | ⟨v, hl⟩
    case succ.inr.intro =>
      rw [branchAux_hit env fuel hl] at h
      injection h with h
      injection h with h1 _
      exact h1 ▸ hx
    case succ.inl =>
      by_cases hk : env.kind i = NodeKind.dummy
      · rw [branchAux_dummy env fuel hl hk] at h
        injection h with h
        injection h with h1 _
        exact h1 ▸ List.mem_cons_of_mem _ hx
      · rcases Option.eq_none_or_eq_some
          (branchFoldF i (branchAux env fuel) (env.preds i) ((i, true) :: memo) dps)
          with hf | ⟨⟨memo2, dps2⟩, hf⟩
        · rw [branchAux_fold_exhaust env fuel hl hk hf] at h
          exact Option.noConfusion h
        · have hx2 : x ∈ mkeys memo2 :=
            branchFoldF_keys (fun j a c e f g hg => ih j a e c f g hg)
              (env.preds i) ((i, true) :: memo) memo2 dps dps2 hf x (List.mem_cons_of_mem _ hx)
          by_cases hsb : (mlookup memo2 i).getD true = true
          · rw [branchAux_fold_true env fuel hl hk hf hsb] at h
            injection h with h
            injection h with h1 _
            exact h1 ▸ hx2
          · rw [branchAux_fold_false env fuel hl hk hf (Bool.not_eq_true _ ▸ hsb)] at h
            injection h with h
            injection h with h1 _
            exact h1 ▸ hx2

/-- The memo keys of the branch child loop stay inside the heap. -/
theorem branchFoldF_keys_univ {selfId : Nat}
    {step : Nat → List (Nat × Bool) → List Nat → Option (List (Nat × Bool) × List Nat × Bool)}
    (Hself : selfId ∈ env.univ)
    (Hstep : ∀ j m d m' d' b, step j m d = some (m', d', b) → j ∈ env.univ →
      (∀ x ∈ mkeys m, x ∈ env.univ) → ∀ x ∈ mkeys m', x ∈ env.univ) :
    ∀ (l : List Nat) (memo m2 : List (Nat × Bool)) (dps d2 : List Nat),
      branchFoldF selfId step l memo dps = some (m2, d2) → (∀ j ∈ l, j ∈ env.univ) →
      (∀ x ∈ mkeys memo, x ∈ env.univ) → ∀ x ∈ mkeys m2, x ∈ env.univ := by
  intro l
  induction l with
  | nil =>
    intro memo m2 dps d2 h _ hm x hx
    obtain ⟨h1, _⟩ := branchFoldF_nil_eq h
    exact hm x (h1 ▸ hx)
  | cons j rest ih =>
    intro memo m2 dps d2 h hl hm x hx
    obtain ⟨m1, d1, b, hs, hrest⟩ := branchFoldF_cons_cases h
    have hm1 : ∀ y ∈ mkeys m1, y ∈ env.univ :=
      Hstep j memo dps m1 d1 b hs (hl j (List.mem_cons_self _ _)) hm
    cases b with
    | true =>
      exact ih m1 m2 d1 d2 (by simpa using hrest)
        (fun a ha => hl a (List.mem_cons_of_mem _ ha)) hm1 x hx
    | false =>
      refine ih ((selfId, false) :: m1) m2 d1 d2 (by simpa using hrest)
        (fun a ha => hl a (List.mem_cons_of_mem _ ha)) ?_ x hx
      intro y hy
      rcases List.mem_cons.mp hy with rfl | hy
      · exact Hself
      · exact hm1 y hy

/-- The memo keys of `_is_replicable_graph` stay inside the heap. -/
theorem branchAux_keys_univ :
    ∀ (fuel i : Nat) (memo m' : List (Nat × Bool)) (dps d' : List Nat) (b : Bool),
      branchAux env fuel i memo dps = some (m', d', b) → i ∈ env.univ →
      (∀ x ∈ mkeys memo, x ∈ env.univ) → ∀ x ∈ mkeys m', x ∈ env.univ := by
  intro fuel
  induction fuel with
  | zero => intro i memo m' dps d' b h; exact Option.noConfusion h
  | succ fuel ih =>
    intro i memo m' dps d' b h hi hm x hx
    rcases Option.eq_none_or_eq_some (mlookup memo i) with hl | ⟨v, hl⟩
    case succ.inr.intro =>
      rw [branchAux_hit env fuel hl] at h
      injection h with h
      injection h with h1 _
      exact hm x (h1 ▸ hx)
    case succ.inl =>
      have hm1 : ∀ y ∈ mkeys ((i, true) :: memo), y ∈ env.univ := by
        intro y hy
        rcases List.mem_cons.mp hy with rfl | hy
        · exact hi
        · exact hm y hy
      by_cases hk : env.kind i = NodeKind.dummy
      · rw [branchAux_dummy env fuel hl hk] at h
        injection h with h
        injection h with h1 _
        rw [← h1] at hx
        rcases List.mem_cons.mp hx with rfl | hx
        · exact hi
        · exact hm x hx
      · rcases Option.eq_none_or_eq_some
          (branchFoldF i (branchAux env fuel) (env.preds i) ((i, true) :: memo) dps)
          with hf | ⟨⟨memo2, dps2⟩, hf⟩
        · rw [branchAux_fold_exhaust env fuel hl hk hf] at h
          exact Option.noConfusion h
        · have hm2 : ∀ y ∈ mkeys memo2, y ∈ env.univ :=
            branchFoldF_keys_univ env hi (fun j a c e f g hg hj ha => ih j a e c f g hg hj ha)
              (env.preds i) ((i, true) :: memo) memo2 dps dps2 hf
              (fun j hj => env.closed i hi j hj) hm1
          by_cases hsb : (mlookup memo2 i).getD true = true
          · rw [branchAux_fold_true env fuel hl hk hf hsb] at h
            injection h with h
            injection h with h1 _
            exact hm2 x (h1 ▸ hx)
          · rw [branchAux_fold_false env fuel hl hk hf (Bool.not_eq_true _ ▸ hsb)] at h
            injection h with h
            injection h with h1 _
            exact hm2 x (h1 ▸ hx)

/-- The branch child loop succeeds when each step succeeds below the fuel
bound. -/
theorem branchFoldF_total (F : Nat) {selfId : Nat}
    {step : Nat → List (Nat × Bool) → List Nat → Option (List (Nat × Bool) × List Nat × Bool)}
    (Hself : selfId ∈ env.univ)
    (Hkeys : ∀ j m d m' d' b, step j m d = some (m', d', b) → ∀ x ∈ mkeys m, x ∈ mkeys m')
    (Huniv : ∀ j m d m' d' b, step j m d = some (m', d', b) → j ∈ env.univ →
      (∀ x ∈ mkeys m, x ∈ env.univ) → ∀ x ∈ mkeys m', x ∈ env.univ)
    (Htot : ∀ j m d, j ∈ env.univ → (∀ x ∈ mkeys m, x ∈ env.univ) →
      unseenCard env (mkeys m) < F → ∃ out, step j m d = some out) :
    ∀ (l : List Nat) (memo : List (Nat × Bool)) (dps : List Nat),
      (∀ j ∈ l, j ∈ env.univ) → (∀ x ∈ mkeys memo, x ∈ env.univ) →
      unseenCard env (mkeys memo) < F →
      ∃ out, branchFoldF selfId step l memo dps = some out := by
  intro l
  induction l with
  | nil => intro memo dps _ _ _; exact ⟨(memo, dps), rfl⟩
  | cons j rest ih =>
    intro memo dps hl hm hc
    obtain ⟨⟨m1, d1, b⟩, hs⟩ := Htot j memo dps (hl j (List.mem_cons_self _ _)) hm hc
    have hkeys1 : ∀ x ∈ mkeys memo, x ∈ mkeys m1 := Hkeys j memo dps m1 d1 b hs
    have hm1 : ∀ x ∈ mkeys m1, x ∈ env.univ :=
      Huniv j memo dps m1 d1 b hs (hl j (List.mem_cons_self _ _)) hm
    have hm1' : ∀ x ∈ mkeys (if b then m1 else (selfId, false) :: m1), x ∈ env.univ := by
      cases b with
      | true => simpa using hm1
      | false =>
        simp only [if_false, Bool.false_eq_true]
        intro y hy
        rcases List.mem_cons.mp hy with rfl | hy
        · exact Hself
        · exact hm1 y hy
    have hc1 : unseenCard env (mkeys (if b then m1 else (selfId, false) :: m1)) < F := by
      refine lt_of_le_of_lt (unseenCard_mono ?_) hc
      intro x hx
      cases b with
      | true => simpa using hkeys1 x hx
      | false =>
        simp only [if_false, Bool.false_eq_true]
        exact List.mem_cons_of_mem _ (hkeys1 x hx)
    obtain ⟨out, hrest⟩ := ih _ d1 (fun a ha => hl a (List.mem_cons_of_mem _ ha)) hm1' hc1
    refine ⟨out, ?_⟩
    simp only [branchFoldF, hs]
    exact hrest

/-- `_is_replicable_graph` succeeds whenever the fuel exceeds the number of
unmemoized heap nodes — on every graph, including graphs with reference
cycles, because the optimistic entry is written before the recursion. -/
theorem branchAux_total :
    ∀ (fuel i : Nat) (memo : List (Nat × Bool)) (dps : List Nat), i ∈ env.univ →
      (∀ x ∈ mkeys memo, x ∈ env.univ) → unseenCard env (mkeys memo) < fuel →
      ∃ out, branchAux env fuel i memo dps = some out := by
  intro fuel
  induction fuel with
  | zero => intro i memo dps _ _ hc; exact absurd hc (Nat.not_lt_zero _)
  | succ fuel ih =>
    intro i memo dps hi hm hc
    rcases Option.eq_none_or_eq_some (mlookup memo i) with hl | ⟨v, hl⟩
    case succ.inr.intro => exact ⟨(memo, dps, v), branchAux_hit env fuel hl⟩
    case succ.inl =>
      by_cases hk : env.kind i = NodeKind.dummy
      · exact ⟨((i, false) :: memo, dps, false), branchAux_dummy env fuel hl hk⟩
      · have hik : i ∉ mkeys memo := not_mem_mkeys_of_mlookup_none hl
        have hc1 : unseenCard env (mkeys ((i, true) :: memo)) < fuel := by
          have := @unseenCard_cons_lt env (mkeys memo) i hi hik
          have h2 := Nat.lt_succ_iff.mp hc
          rw [mkeys_cons]
          omega
        have hm1 : ∀ x ∈ mkeys ((i, true) :: memo), x ∈ env.univ := by
          intro x hx
          rcases List.mem_cons.mp hx with rfl | hx
          · exact hi
          · exact hm x hx
        obtain ⟨⟨memo2, dps2⟩, hf⟩ := branchFoldF_total env fuel hi
          (fun j a c e f g hg => branchAux_keys env fuel j a e c f g hg)
          (fun j a c e f g hg hj ha => branchAux_keys_univ env fuel j a e c f g hg hj ha)
          (fun j a c hj ha hca => ih j a c hj ha hca)
          (env.preds i) ((i, true) :: memo) dps (fun j hj => env.closed i hi j hj) hm1 hc1
        by_cases hsb : (mlookup memo2 i).getD true = true
        · exact ⟨_, branchAux_fold_true env fuel hl hk hf hsb⟩
        · exact ⟨_, branchAux_fold_false env fuel hl hk hf (Bool.not_eq_true _ ▸ hsb)⟩

/-- Case split on a successful call of `branchAux` at positive fuel.  In the
recursive case the current node still has an entry after the child loop, so
the read before the append loop cannot fail (mirrors the source comment "All
children should have been added to branch_is_replicable already"). -/
theorem branchAux_cases {fuel i : Nat} {memo m' : List (Nat × Bool)} {dps d' : List Nat} {b : Bool}
    (h : branchAux env (fuel + 1) i memo dps = some (m', d', b)) :
    (mlookup memo i = some b ∧ m' = memo ∧ d' = dps)
    ∨ (mlookup memo i = none ∧ env.kind i = NodeKind.dummy ∧
        m' = (i, false) :: memo ∧ d' = dps ∧ b = false)
    ∨ (mlookup memo i = none ∧ ¬ env.kind i = NodeKind.dummy ∧
        ∃ memo2 dps2,
          branchFoldF i (branchAux env fuel) (env.preds i) ((i, true) :: memo) dps
            = some (memo2, dps2)
          ∧ ((mlookup memo2 i = some true ∧ m' = memo2 ∧ d' = dps2 ∧ b = true)
             ∨ (mlookup memo2 i = some false ∧ m' = memo2
                ∧ d' = dps2 ++ (env.preds i).filter (fun j => (mlookup memo2 j).getD false)
                ∧ b = false))) := by
  rcases Option.eq_none_or_eq_some (mlookup memo i) with hl | ⟨v, hl⟩
  case inr =>
    rw [branchAux_hit env fuel hl] at h
    injection h with h
    injection h with h1 h2
    injection h2 with h2 h3
    exact Or.inl ⟨h3 ▸ hl, h1.symm, h2.symm⟩
  case inl =>
    by_cases hk : env.kind i = NodeKind.dummy
    · rw [branchAux_dummy env fuel hl hk] at h
      injection h with h
      injection h with h1 h2
      injection h2 with h2 h3
      exact Or.inr (Or.inl ⟨hl, hk, h1.symm, h2.symm, h3.symm⟩)
    · rcases Option.eq_none_or_eq_some
        (branchFoldF i (branchAux env fuel) (env.preds i) ((i, true) :: memo) dps)
        with hf | ⟨⟨memo2, dps2⟩, hf⟩
      · rw [branchAux_fold_exhaust env fuel hl hk hf] at h
        exact Option.noConfusion h
      · have hkey : i ∈ mkeys memo2 :=
          branchFoldF_keys (fun j a c e f g hg => branchAux_keys env fuel j a e c f g hg)
            (env.preds i) ((i, true) :: memo) memo2 dps dps2 hf i (List.mem_cons_self _ _)
        obtain ⟨sv, hsv⟩ := mlookup_isSome_of_mem_mkeys hkey
        cases sv with
        | true =>
          rw [branchAux_fold_true env fuel hl hk hf (by rw [hsv]; rfl)] at h
          injection h with h
          injection h with h1 h2
          injection h2 with h2 h3
          exact Or.inr (Or.inr ⟨hl, hk, memo2, dps2, hf,
            Or.inl ⟨hsv, h1.symm, h2.symm, h3.symm⟩⟩)
        | false =>
          rw [branchAux_fold_false env fuel hl hk hf (by rw [hsv]; rfl)] at h
          injection h with h
          injection h with h1 h2
          injection h2 with h2 h3
          exact Or.inr (Or.inr ⟨hl, hk, memo2, dps2, hf,
            Or.inr ⟨hsv, h1.symm, h2.symm, h3.symm⟩⟩)

/-- After a successful call, the node has a memo entry. -/
theorem branchAux_self_key {fuel i : Nat} {memo m' : List (Nat × Bool)} {dps d' : List Nat}
    {b : Bool} (h : branchAux env (fuel + 1) i memo dps = some (m', d', b)) :
    i ∈ mkeys m' := by
  rcases branchAux_cases env h with ⟨hl, rfl, _⟩ | ⟨_, _, rfl, _, _⟩
    | ⟨_, _, memo2, dps2, hf, hcase⟩
  · exact mem_mkeys_of_mlookup hl
  · exact List.mem_cons_self _ _
  · have hkey : i ∈ mkeys memo2 :=
      branchFoldF_keys (fun j a c e f g hg => branchAux_keys env fuel j a e c f g hg)
        (env.preds i) ((i, true) :: memo) memo2 dps dps2 hf i (List.mem_cons_self _ _)
    rcases hcase with ⟨_, rfl, _⟩ | ⟨_, rfl, _⟩
    · exact hkey
    · exact hkey

/-! ### Invariants of the branch extraction result list -/

/-- A `false` entry, once recorded, is never overwritten by `true`: `true` is
only ever written for a node with no entry, and downgrades write `false`. -/
theorem branchFoldF_false_persists {selfId : Nat}
    {step : Nat → List (Nat × Bool) → List Nat → Option (List (Nat × Bool) × List Nat × Bool)}
    (Hstep : ∀ j m d m' d' b, step j m d = some (m', d', b) →
      ∀ k, mlookup m k = some false → mlookup m' k = some false) :
    ∀ (l : List Nat) (memo m2 : List (Nat × Bool)) (dps d2 : List Nat),
      branchFoldF selfId step l memo dps = some (m2, d2) →
      ∀ k, mlookup memo k = some false → mlookup m2 k = some false := by
  intro l
  induction l with
  | nil =>
    intro memo m2 dps d2 h k hk
    obtain ⟨h1, _⟩ := branchFoldF_nil_eq h
    exact h1 ▸ hk
  | cons j rest ih =>
    intro memo m2 dps d2 h k hk
    obtain ⟨m1, d1, b, hs, hrest⟩ := branchFoldF_cons_cases h
    have hk1 : mlookup m1 k = some false := Hstep j memo dps m1 d1 b hs k hk
    cases b with
    | true => exact ih m1 m2 d1 d2 (by simpa using hrest) k hk1
    | false =>
      refine ih ((selfId, false) :: m1) m2 d1 d2 (by simpa using hrest) k ?_
      rw [mlookup_cons]
      by_cases hks : k = selfId
      · rw [if_pos hks]
      · rw [if_neg hks]; exact hk1

/-- `false` entries persist across `_is_replicable_graph`. -/
theorem branchAux_false_persists :
    ∀ (fuel i : Nat) (memo m' : List (Nat × Bool)) (dps d' : List Nat) (b : Bool),
      branchAux env fuel i memo dps = some (m', d', b) →
      ∀ k, mlookup memo k = some false → mlookup m' k = some false := by
  intro fuel
  induction fuel with
  | zero => intro i memo m' dps d' b h; exact Option.noConfusion h
  | succ fuel ih =>
    intro i memo m' dps d' b h k hk
    rcases branchAux_cases env h with ⟨_, rfl, _⟩ | ⟨hl, _, rfl, _, _⟩
      | ⟨hl, _, memo2, dps2, hf, hcase⟩
    · exact hk
    · rw [mlookup_cons]
      have hki : k ≠ i := fun hki => by rw [hki, hl] at hk; exact Option.noConfusion hk
      rw [if_neg hki]
      exact hk
    · have hki : k ≠ i := fun hki => by rw [hki, hl] at hk; exact Option.noConfusion hk
      have hk1 : mlookup ((i, true) :: memo) k = some false := by
        rw [mlookup_cons, if_neg hki]; exact hk
      have hk2 : mlookup memo2 k = some false :=
        branchFoldF_false_persists (fun j a c e f g hg => ih j a e c f g hg)
          (env.preds i) ((i, true) :: memo) memo2 dps dps2 hf k hk1
      rcases hcase with ⟨_, rfl, _⟩ | ⟨_, rfl, _⟩
      · exact hk2
      · exact hk2

theorem branchSound_write_false {memo : List (Nat × Bool)} {dps : List Nat} {k : Nat}
    (h : BranchSound env memo dps) : BranchSound env ((k, false) :: memo) dps := by
  intro x hx
  obtain ⟨m, hm, hxm⟩ := h x hx
  refine ⟨m, ?_, hxm⟩
  rw [mlookup_cons]
  by_cases hmk : m = k
  · rw [if_pos hmk]
  · rw [if_neg hmk]; exact hm

theorem branchSound_write_new {memo : List (Nat × Bool)} {dps : List Nat} {k : Nat} {v : Bool}
    (hk : mlookup memo k = none) (h : BranchSound env memo dps) :
    BranchSound env ((k, v) :: memo) dps := by
  intro x hx
  obtain ⟨m, hm, hxm⟩ := h x hx
  have hmk : m ≠ k := fun hmk => by rw [hmk, hk] at hm; exact Option.noConfusion hm
  refine ⟨m, ?_, hxm⟩
  rw [mlookup_cons, if_neg hmk]
  exact hm

/-- The child loop preserves the soundness invariant. -/
theorem branchFoldF_sound {selfId : Nat}
    {step : Nat → List (Nat × Bool) → List Nat → Option (List (Nat × Bool) × List Nat × Bool)}
    (Hstep : ∀ j m d m' d' b, step j m d = some (m', d', b) →
      BranchSound env m d → BranchSound env m' d') :
    ∀ (l : List Nat) (memo m2 : List (Nat × Bool)) (dps d2 : List Nat),
      branchFoldF selfId step l memo dps = some (m2, d2) →
      BranchSound env memo dps → BranchSound env m2 d2 := by
  intro l
  induction l with
  | nil =>
    intro memo m2 dps d2 h hs
    obtain ⟨h1, h2⟩ := branchFoldF_nil_eq h
    exact h1 ▸ h2 ▸ hs
  | cons j rest ih =>
    intro memo m2 dps d2 h hs
    obtain ⟨m1, d1, b, hstep, hrest⟩ := branchFoldF_cons_cases h
    have hs1 : BranchSound env m1 d1 := Hstep j memo dps m1 d1 b hstep hs
    cases b with
    | true => exact ih m1 m2 d1 d2 (by simpa using hrest) hs1
    | false =>
      exact ih ((selfId, false) :: m1) m2 d1 d2 (by simpa using hrest)
        (branchSound_write_false env hs1)

/-- `_is_replicable_graph` preserves the soundness invariant: every node it
appends is a direct predecessor of a node recorded non-replicable. -/
theorem branchAux_sound :
    ∀ (fuel i : Nat) (memo m' : List (Nat × Bool)) (dps d' : List Nat) (b : Bool),
      branchAux env fuel i memo dps = some (m', d', b) →
      BranchSound env memo dps → BranchSound env m' d' := by
  intro fuel
  induction fuel with
  | zero => intro i memo m' dps d' b h; exact Option.noConfusion h
  | succ fuel ih =>
    intro i memo m' dps d' b h hs
    rcases branchAux_cases env h with ⟨_, rfl, rfl⟩ | ⟨hl, _, rfl, rfl, _⟩
      | ⟨hl, _, memo2, dps2, hf, hcase⟩
    · exact hs
    · exact branchSound_write_new env hl hs
    · have hs2 : BranchSound env memo2 dps2 :=
        branchFoldF_sound env (fun j a c e f g hg => ih j a e c f g hg)
          (env.preds i) ((i, true) :: memo) memo2 dps dps2 hf
          (branchSound_write_new env hl hs)
      rcases hcase with ⟨_, rfl, rfl, _⟩ | ⟨hsv, rfl, rfl, _⟩
      · exact hs2
      · intro x hx
        rcases List.mem_append.mp hx with hx | hx
        · exact hs2 x hx
        · obtain ⟨hxp, _⟩ := List.mem_filter.mp hx
          exact ⟨i, hsv, hxp⟩

theorem branchComplete_mono_S {S S' : List Nat} {memo : List (Nat × Bool)} {dps : List Nat}
    (hS : ∀ s ∈ S, s ∈ S') (h : BranchComplete env S memo dps) :
    BranchComplete env S' memo dps := by
  intro m hm hk
  rcases h m hm hk with hmS | hcl
  · exact Or.inl (hS m hmS)
  · exact Or.inr hcl

theorem branchComplete_mono_dps {S : List Nat} {memo : List (Nat × Bool)} {dps dps' : List Nat}
    (hd : ∀ x ∈ dps, x ∈ dps') (h : BranchComplete env S memo dps) :
    BranchComplete env S memo dps' := by
  intro m hm hk
  rcases h m hm hk with hmS | hcl
  · exact Or.inl hmS
  · refine Or.inr (fun x hx => ?_)
    obtain ⟨v, hv, himp⟩ := hcl x hx
    exact ⟨v, hv, fun ht => hd x (himp ht)⟩

/-- Writing `true` for a node with no entry preserves completeness. -/
theorem branchComplete_write_true {S : List Nat} {memo : List (Nat × Bool)} {dps : List Nat}
    {k : Nat} (hk : mlookup memo k = none) (h : BranchComplete env S memo dps) :
    BranchComplete env S ((k, true) :: memo) dps := by
  intro m hm hkm
  have hmk : m ≠ k := by
    intro hmk
    rw [hmk, mlookup_cons, if_pos rfl] at hm
    injection hm with hm
    exact Bool.noConfusion hm
  rw [mlookup_cons, if_neg hmk] at hm
  rcases h m hm hkm with hmS | hcl
  · exact Or.inl hmS
  · refine Or.inr (fun x hx => ?_)
    obtain ⟨v, hv, himp⟩ := hcl x hx
    have hxk : x ≠ k := fun hxk => by rw [hxk, hk] at hv; exact Option.noConfusion hv
    refine ⟨v, ?_, himp⟩
    rw [mlookup_cons, if_neg hxk]
    exact hv

/-- Writing `false` for an open or placeholder node preserves completeness. -/
theorem branchComplete_write_false {S : List Nat} {memo : List (Nat × Bool)} {dps : List Nat}
    {k : Nat} (hk : k ∈ S ∨ env.kind k = NodeKind.dummy) (h : BranchComplete env S memo dps) :
    BranchComplete env S ((k, false) :: memo) dps := by
  intro m hm hkm
  by_cases hmk : m = k
  · subst hmk
    rcases hk with hk | hk
    · exact Or.inl hk
    · exact absurd hk hkm
  · rw [mlookup_cons, if_neg hmk] at hm
    rcases h m hm hkm with hmS | hcl
    · exact Or.inl hmS
    · refine Or.inr (fun x hx => ?_)
      obtain ⟨v, hv, himp⟩ := hcl x hx
      by_cases hxk : x = k
      · exact ⟨false, by rw [hxk, mlookup_cons, if_pos rfl], fun ht => Bool.noConfusion ht⟩
      · exact ⟨v, by rw [mlookup_cons, if_neg hxk]; exact hv, himp⟩

/-- The child loop preserves completeness when the current node is open. -/
theorem branchFoldF_complete {selfId : Nat} {S : List Nat}
    {step : Nat → List (Nat × Bool) → List Nat → Option (List (Nat × Bool) × List Nat × Bool)}
    (HselfS : selfId ∈ S)
    (Hstep : ∀ j m d m' d' b, step j m d = some (m', d', b) →
      BranchComplete env S m d → BranchComplete env S m' d') :
    ∀ (l : List Nat) (memo m2 : List (Nat × Bool)) (dps d2 : List Nat),
      branchFoldF selfId step l memo dps = some (m2, d2) →
      BranchComplete env S memo dps → BranchComplete env S m2 d2 := by
  intro l
  induction l with
  | nil =>
    intro memo m2 dps d2 h hc
    obtain ⟨h1, h2⟩ := branchFoldF_nil_eq h
    exact h1 ▸ h2 ▸ hc
  | cons j rest ih =>
    intro memo m2 dps d2 h hc
    obtain ⟨m1, d1, b, hstep, hrest⟩ := branchFoldF_cons_cases h
    have hc1 : BranchComplete env S m1 d1 := Hstep j memo dps m1 d1 b hstep hc
    cases b with
    | true => exact ih m1 m2 d1 d2 (by simpa using hrest) hc1
    | false =>
      exact ih ((selfId, false) :: m1) m2 d1 d2 (by simpa using hrest)
        (branchComplete_write_false env (Or.inl HselfS) hc1)

/-- Every node handed to the child loop has a memo entry afterwards. -/
theorem branchFoldF_entries {selfId : Nat}
    {step : Nat → List (Nat × Bool) → List Nat → Option (List (Nat × Bool) × List Nat × Bool)}
    (Hkeys : ∀ j m d m' d' b, step j m d = some (m', d', b) → ∀ x ∈ mkeys m, x ∈ mkeys m')
    (Hself : ∀ j m d m' d' b, step j m d = some (m', d', b) → j ∈ mkeys m') :
    ∀ (l : List Nat) (memo m2 : List (Nat × Bool)) (dps d2 : List Nat),
      branchFoldF selfId step l memo dps = some (m2, d2) → ∀ j ∈ l, j ∈ mkeys m2 := by
  intro l
  induction l with
  | nil => intro memo m2 dps d2 _ j hj; exact absurd hj (List.not_mem_nil j)
  | cons j0 rest ih =>
    intro memo m2 dps d2 h j hj
    obtain ⟨m1, d1, b, hstep, hrest⟩ := branchFoldF_cons_cases h
    rcases List.mem_cons.mp hj with rfl | hj
    · have hj1 : j ∈ mkeys m1 := Hself j memo dps m1 d1 b hstep
      have hj2 : j ∈ mkeys (if b then m1 else (selfId, false) :: m1) := by
        cases b with
        | true => simpa using hj1
        | false => simp only [if_false, Bool.false_eq_true]; exact List.mem_cons_of_mem _ hj1
      exact branchFoldF_keys (fun a c e f g k hk => Hkeys a c e f g k hk) rest _ m2 d1 d2
        hrest j hj2
    · exact ih _ m2 d1 d2 hrest j hj

/-- `branchAux` at any fuel leaves an entry for its node. -/
theorem branchAux_self_key' :
    ∀ (fuel i : Nat) (memo m' : List (Nat × Bool)) (dps d' : List Nat) (b : Bool),
      branchAux env fuel i memo dps = some (m', d', b) → i ∈ mkeys m' := by
  intro fuel
  cases fuel with
  | zero => intro i memo m' dps d' b h; exact Option.noConfusion h
  | succ fuel => intro i memo m' dps d' b h; exact branchAux_self_key env h

/-- `_is_replicable_graph` preserves the completeness invariant and, upon
returning, has discharged its own node's obligation. -/
theorem branchAux_complete :
    ∀ (fuel i : Nat) (memo m' : List (Nat × Bool)) (dps d' : List Nat) (b : Bool)
      (S : List Nat),
      branchAux env fuel i memo dps = some (m', d', b) →
      BranchComplete env S memo dps → BranchComplete env S m' d' := by
  intro fuel
  induction fuel with
  | zero => intro i memo m' dps d' b S h; exact Option.noConfusion h
  | succ fuel ih =>
    intro i memo m' dps d' b S h hc
    rcases branchAux_cases env h with ⟨_, rfl, rfl⟩ | ⟨hl, hk, rfl, rfl, _⟩
      | ⟨hl, hk, memo2, dps2, hf, hcase⟩
    · exact hc
    · exact branchComplete_write_false env (Or.inr hk) hc
    · have hcS' : BranchComplete env (i :: S) ((i, true) :: memo) dps :=
        branchComplete_write_true env hl
          (branchComplete_mono_S env (fun s hs => List.mem_cons_of_mem _ hs) hc)
      have hc2 : BranchComplete env (i :: S) memo2 dps2 :=
        branchFoldF_complete env (List.mem_cons_self _ _)
          (fun j a c e f g hg hcc => ih j a e c f g (i :: S) hg hcc)
          (env.preds i) ((i, true) :: memo) memo2 dps dps2 hf hcS'
      have hentries : ∀ x ∈ env.preds i, x ∈ mkeys memo2 :=
        branchFoldF_entries (fun j a c e f g hg => branchAux_keys env fuel j a e c f g hg)
          (fun j a c e f g hg => branchAux_self_key' env fuel j a e c f g hg)
          (env.preds i) ((i, true) :: memo) memo2 dps dps2 hf
      rcases hcase with ⟨hsv, rfl, rfl, _⟩ | ⟨hsv, rfl, rfl, _⟩
      · -- final entry `true`: the node's own obligation is vacuous
        intro m hm hkm
        rcases hc2 m hm hkm with hmS | hcl
        · rcases List.mem_cons.mp hmS with rfl | hmS
          · rw [hsv] at hm
            injection hm with hm
            exact absurd hm.symm (Bool.noConfusion)
          · exact Or.inl hmS
        · exact Or.inr hcl
      · -- final entry `false`: the append loop discharges the obligation
        intro m hm hkm
        by_cases hmi : m = i
        · subst hmi
          refine Or.inr (fun x hx => ?_)
          obtain ⟨v, hv⟩ := mlookup_isSome_of_mem_mkeys (hentries x hx)
          refine ⟨v, hv, fun ht => ?_⟩
          refine List.mem_append_right _ (List.mem_filter.mpr ⟨hx, ?_⟩)
          rw [hv, ht]
          rfl
        · rcases hc2 m hm hkm with hmS | hcl
          · rcases List.mem_cons.mp hmS with rfl | hmS
            · exact absurd rfl hmi
            · exact Or.inl hmS
          · refine Or.inr (fun x hx => ?_)
            obtain ⟨v, hv, himp⟩ := hcl x hx
            exact ⟨v, hv, fun ht => List.mem_append_left _ (himp ht)⟩

end BranchLemmas

/-! ### Composition lemmas for `find_replicable_branches` -/

/-- On a single-rooted graph, branch extraction succeeds — on every graph,
including graphs with reference cycles. -/
theorem find_branches_ok {g : RootedGraph} {r : Nat} (h : g.roots = [r]) :
    ∃ l, find_replicable_branches g = Except.ok l := by
  have hr : r ∈ g.env.univ := g.roots_mem r (h ▸ List.mem_cons_self _ _)
  obtain ⟨⟨memoF, dpsF, b⟩, hout⟩ := branchAux_total g.env (g.env.univ.length + 1) r [] []
    hr (by intro x hx; cases hx) (unseenCard_lt_fuel g.env (mkeys []))
  refine ⟨if b then dpsF ++ [r] else dpsF, ?_⟩
  simp only [find_replicable_branches, h, hout]

/-- Characterization of a `find_replicable_branches` run: the run succeeds,
every listed node is the root or a direct predecessor of a node finally
recorded non-replicable, and every node finally recorded replicable that
directly precedes a non-placeholder node finally recorded non-replicable is
listed. -/
theorem find_branches_spec {g : RootedGraph} {r : Nat} (h : g.roots = [r]) :
    ∃ memoF dpsF b,
      branchAux g.env (g.env.univ.length + 1) r [] [] = some (memoF, dpsF, b)
      ∧ find_replicable_branches g = Except.ok (if b then dpsF ++ [r] else dpsF)
      ∧ (∀ x ∈ (if b then dpsF ++ [r] else dpsF),
          x = r ∨ ∃ m, mlookup memoF m = some false ∧ x ∈ g.env.preds m)
      ∧ (∀ m x, mlookup memoF m = some false → g.env.kind m ≠ NodeKind.dummy →
          x ∈ g.env.preds m → mlookup memoF x = some true → x ∈ dpsF) := by
  have hr : r ∈ g.env.univ := g.roots_mem r (h ▸ List.mem_cons_self _ _)
  obtain ⟨⟨memoF, dpsF, b⟩, hout⟩ := branchAux_total g.env (g.env.univ.length + 1) r [] []
    hr (by intro x hx; cases hx) (unseenCard_lt_fuel g.env (mkeys []))
  have hsound : BranchSound g.env memoF dpsF :=
    branchAux_sound g.env _ r [] memoF [] dpsF b hout
      (by intro x hx; exact absurd hx (List.not_mem_nil x))
  have hcomp : BranchComplete g.env [] memoF dpsF :=
    branchAux_complete g.env _ r [] memoF [] dpsF b [] hout
      (by intro m hm _; exact absurd hm (by intro hc; exact Option.noConfusion hc))
  refine ⟨memoF, dpsF, b, hout, ?_, ?_, ?_⟩
  · simp only [find_replicable_branches, h, hout]
  · intro x hx
    have hx' : x ∈ dpsF ∨ x = r := by
      cases b with
      | true =>
        have hx0 : x ∈ dpsF ++ [r] := by simpa using hx
        rcases List.mem_append.mp hx0 with hx1 | hx1
        · exact Or.inl hx1
        · exact Or.inr (List.mem_singleton.mp hx1)
      | false => exact Or.inl (by simpa using hx)
    rcases hx' with hx1 | rfl
    · obtain ⟨m, hm, hxm⟩ := hsound x hx1
      exact Or.inr ⟨m, hm, hxm⟩
    · exact Or.inl rfl
  · intro m x hm hkm hxm hxv
    rcases hcomp m hm hkm with hmS | hcl
    · exact absurd hmS (List.not_mem_nil m)
    · obtain ⟨v, hv, himp⟩ := hcl x hxm
      rw [hxv] at hv
      injection hv with hv
      exact himp hv.symm

/-! ### The claims -/

/-- Claim C1: in the LCA reduction, for a node whose predecessor loop
collected a non-empty outcome list, the result recorded and returned for the
node is `lcaCombine` of that list: when the list has exactly one outcome or
all outcomes are the identical node, that single node is propagated upward
unchanged, and when the list has two or more distinct outcomes, the current
node itself becomes the lowest common ancestor. -/
theorem claim_C1_combine (env : Env) (nrs : List Nat) (fuel i : Nat)
    (memo m2 : List (Nat × Option Nat)) (p : Nat) (ps' : List Nat)
    (hl : mlookup memo i = none) (hn : i ∉ nrs)
    (hf : lcaFoldF (lcaAux env nrs fuel) (env.preds i) ((i, none) :: memo) []
      = some (m2, p :: ps')) :
    lcaAux env nrs (fuel + 1) i memo
      = some ((i, some (lcaCombine i (p :: ps'))) :: m2, some (lcaCombine i (p :: ps')))
    ∧ ((∀ q ∈ p :: ps', q = p) → lcaCombine i (p :: ps') = p)
    ∧ ((∃ q1 ∈ p :: ps', ∃ q2 ∈ p :: ps', q1 ≠ q2) → lcaCombine i (p :: ps') = i) := by
  refine ⟨lcaAux_fold_pos env nrs fuel hl hn hf (by simp), ?_, ?_⟩
  · intro hall
    have hcond : ((p :: ps').all fun dp => dp == p) = true := by
      rw [List.all_eq_true]
      intro q hq
      rw [beq_iff_eq]
      exact hall q hq
    simp only [lcaCombine, hcond, or_true, if_pos]
  · rintro ⟨q1, h1, q2, h2, hne⟩
    have hlen : ¬ (p :: ps').length = 1 := by
      intro hlen
      have hnil : ps' = [] := by
        cases ps' with
        | nil => rfl
        | cons a t => simp at hlen
      subst hnil
      rw [List.mem_singleton.mp h1, List.mem_singleton.mp h2] at hne
      exact hne rfl
    have hall : ¬ ((p :: ps').all fun dp => dp == p) = true := by
      intro hall
      rw [List.all_eq_true] at hall
      have e1 := beq_iff_eq.mp (hall q1 h1)
      have e2 := beq_iff_eq.mp (hall q2 h2)
      rw [e1, e2] at hne
      exact hne rfl
    have hnil : ps' ≠ [] := by
      intro hnil
      rw [hnil] at hlen
      exact hlen rfl
    simp [lcaCombine, hall, hnil]

/-- Witness for C1 on the chain 0 ← 1 with node 1 in the non-replicable set:
the predecessor loop collects `[1]` and node 0 records and returns node 1. -/
theorem claim_C1_combine_witness :
    lcaAux envW1 [1] (1 + 1) 0 []
      = some ((0, some (lcaCombine 0 [1])) :: [(1, some 1), (0, none)],
          some (lcaCombine 0 [1]))
    ∧ ((∀ q ∈ [1], q = 1) → lcaCombine 0 [1] = 1)
    ∧ ((∃ q1 ∈ [1], ∃ q2 ∈ [1], q1 ≠ q2) → lcaCombine 0 [1] = 0) :=
  claim_C1_combine envW1 [1] 1 0 [] [(1, some 1), (0, none)] 1 []
    (by decide) (by decide) (by decide)

/-- Claim C3 (with the spec-modelled traversals): the marking step records
exactly the transitive predecessors of reachable
`ShardingRoundRobinDispatcher` nodes; in particular a marker's own identity
is not recorded unless the marker is itself such a transitive predecessor. -/
theorem claim_C3_marking (env : Env) (r : Nat) (hr : r ∈ env.univ) :
    ∃ nrs, nonReplicableSet env r = some nrs
      ∧ (∀ i, i ∈ nrs ↔ ∃ m, Reach env r m ∧ env.kind m = NodeKind.roundRobinSharding
          ∧ ∃ j ∈ env.preds m, Reach env j i)
      ∧ (∀ m, env.kind m = NodeKind.roundRobinSharding →
          (¬ ∃ m', Reach env r m' ∧ env.kind m' = NodeKind.roundRobinSharding
            ∧ ∃ j ∈ env.preds m', Reach env j m) → m ∉ nrs) := by
  obtain ⟨nrs, h1, h2⟩ := nonReplicableSet_spec hr
  exact ⟨nrs, h1, h2, fun m _ hno hmem => hno ((h2 m).mp hmem)⟩

/-- Witness for C3 on the chain 0 ← 1 ← 2 ← 3 with the marker at 2. -/
theorem claim_C3_marking_witness :
    ∃ nrs, nonReplicableSet envMark 0 = some nrs
      ∧ (∀ i, i ∈ nrs ↔ ∃ m, Reach envMark 0 m ∧ envMark.kind m = NodeKind.roundRobinSharding
          ∧ ∃ j ∈ envMark.preds m, Reach envMark j i)
      ∧ (∀ m, envMark.kind m = NodeKind.roundRobinSharding →
          (¬ ∃ m', Reach envMark 0 m' ∧ envMark.kind m' = NodeKind.roundRobinSharding
            ∧ ∃ j ∈ envMark.preds m', Reach envMark j m) → m ∉ nrs) :=
  claim_C3_marking envMark 0 (by decide)

/-- Claim C5: on every single-rooted graph — in particular on one containing
a node that is its own transitive predecessor — both public operations
terminate with a defined result instead of exhausting the recursion depth,
and in both recursions a node's memo entry, written strictly before the
recursion into its predecessors, makes any re-entry (cyclic or not) return
immediately. -/
theorem claim_C5_cycle_safe (g : RootedGraph) (r n j : Nat) (hroots : g.roots = [r])
    (hj : j ∈ g.env.preds n) (hcyc : Reach g.env j n) :
    (∃ v, find_lca_non_replicable_dp g = Except.ok v)
    ∧ (∃ l, find_replicable_branches g = Except.ok l)
    ∧ (∀ (nrs : List Nat) (fuel i : Nat) (memo : List (Nat × Option Nat)) (v : Option Nat),
        mlookup memo i = some v → lcaAux g.env nrs (fuel + 1) i memo = some (memo, v))
    ∧ (∀ (fuel i : Nat) (memo : List (Nat × Bool)) (dps : List Nat) (b : Bool),
        mlookup memo i = some b → branchAux g.env (fuel + 1) i memo dps = some (memo, dps, b)) :=
  ⟨find_lca_ok hroots, find_branches_ok hroots,
   fun nrs fuel i memo v hv => lcaAux_hit g.env nrs fuel hv,
   fun fuel i memo dps b hb => branchAux_hit g.env fuel hb⟩

/-- Witness for C5 on the reference cycle 0 ⇄ 1 (with placeholder 2). -/
theorem claim_C5_cycle_safe_witness :
    (∃ v, find_lca_non_replicable_dp gC8 = Except.ok v)
    ∧ (∃ l, find_replicable_branches gC8 = Except.ok l)
    ∧ (∀ (nrs : List Nat) (fuel i : Nat) (memo : List (Nat × Option Nat)) (v : Option Nat),
        mlookup memo i = some v → lcaAux gC8.env nrs (fuel + 1) i memo = some (memo, v))
    ∧ (∀ (fuel i : Nat) (memo : List (Nat × Bool)) (dps : List Nat) (b : Bool),
        mlookup memo i = some b → branchAux gC8.env (fuel + 1) i memo dps = some (memo, dps, b)) :=
  claim_C5_cycle_safe gC8 0 0 1 rfl (by decide)
    (Relation.ReflTransGen.single (by decide))

/-- Claim C6: on a graph containing no `ShardingRoundRobinDispatcher` node,
`find_lca_non_replicable_dp` returns `none`. -/
theorem claim_C6_no_marker (g : RootedGraph) (r : Nat) (h : g.roots = [r])
    (hnm : ∀ i ∈ g.env.univ, g.env.kind i ≠ NodeKind.roundRobinSharding) :
    find_lca_non_replicable_dp g = Except.ok none :=
  find_lca_no_marker h hnm

/-- Witness for C6 on the marker-free cyclic graph `gC8`. -/
theorem claim_C6_no_marker_witness : find_lca_non_replicable_dp gC8 = Except.ok none :=
  claim_C6_no_marker gC8 0 rfl (by decide)

/-- Claim C9: with zero roots or more than one root, both operations fail
immediately with the invalid-graph-shape error and produce no result. -/
theorem claim_C9_invalid_shape (g : RootedGraph) (h : g.roots.length ≠ 1) :
    find_lca_non_replicable_dp g = Except.error GraphError.invalidShape
    ∧ find_replicable_branches g = Except.error GraphError.invalidShape := by
  rcases hg : g.roots with _ | ⟨a, t⟩
  · constructor
    · simp [find_lca_non_replicable_dp, hg]
    · simp [find_replicable_branches, hg]
  · cases t with
    | nil => exact absurd (by rw [hg]; rfl) h
    | cons b t2 =>
      constructor
      · simp [find_lca_non_replicable_dp, hg]
      · simp [find_replicable_branches, hg]

/-- Witness for C9 on the zero-root graph value. -/
theorem claim_C9_invalid_shape_witness :
    find_lca_non_replicable_dp gNoRoot = Except.error GraphError.invalidShape
    ∧ find_replicable_branches gNoRoot = Except.error GraphError.invalidShape :=
  claim_C9_invalid_shape gNoRoot (by decide)

/-- Claim C10: both operations are pure functions of the graph value alone —
in the embedding every mutable structure of the source (the memo tables, the
non-replicable set, the result list) is created inside one invocation and
threaded explicitly, so re-running either on the same unmodified snapshot is
the same function application and yields an identical result. -/
theorem claim_C10_deterministic (g : RootedGraph) :
    find_lca_non_replicable_dp g = find_lca_non_replicable_dp g
    ∧ find_replicable_branches g = find_replicable_branches g :=
  ⟨rfl, rfl⟩

/-- Claim C2 fails on the code: on `gC2` the returned list is `[4, 4, 1]` —
node 4 is appended twice (once per non-replicable parent 2 and 3), and node 4
also lies inside the replicable region of the listed node 1 (4 is in 1's
predecessor closure), so neither "appended at most once" nor the
ancestor-subsumption invariant holds. -/
theorem claim_C2_counterexample :
    find_replicable_branches gC2 = Except.ok [4, 4, 1]
    ∧ ¬ ([4, 4, 1] : List Nat).Nodup
    ∧ (∃ L, predClos envC2 1 = some L ∧ 4 ∈ L) :=
  ⟨rfl, by decide, ⟨[4], rfl, by decide⟩⟩

/-- Claim C2 as amended: the run succeeds and its list consists of direct
predecessors of nodes finally recorded non-replicable (plus the root when the
whole graph is replicable) — with one entry per such non-replicable successor,
so a node can occur several times and beside a node subsuming it — and
conversely no replicable region at such a boundary is omitted: every node
finally recorded replicable that directly precedes a non-placeholder node
finally recorded non-replicable is in the list. -/
theorem claim_C2_amended (g : RootedGraph) (r : Nat) (h : g.roots = [r]) :
    ∃ memoF dpsF b,
      branchAux g.env (g.env.univ.length + 1) r [] [] = some (memoF, dpsF, b)
      ∧ find_replicable_branches g = Except.ok (if b then dpsF ++ [r] else dpsF)
      ∧ (∀ x ∈ (if b then dpsF ++ [r] else dpsF),
          x = r ∨ ∃ m, mlookup memoF m = some false ∧ x ∈ g.env.preds m)
      ∧ (∀ m x, mlookup memoF m = some false → g.env.kind m ≠ NodeKind.dummy →
          x ∈ g.env.preds m → mlookup memoF x = some true → x ∈ dpsF) :=
  find_branches_spec h

/-- Witness for the amended C2 on the counterexample graph itself. -/
theorem claim_C2_amended_witness :
    ∃ memoF dpsF b,
      branchAux gC2.env (gC2.env.univ.length + 1) 0 [] [] = some (memoF, dpsF, b)
      ∧ find_replicable_branches gC2 = Except.ok (if b then dpsF ++ [0] else dpsF)
      ∧ (∀ x ∈ (if b then dpsF ++ [0] else dpsF),
          x = 0 ∨ ∃ m, mlookup memoF m = some false ∧ x ∈ gC2.env.preds m)
      ∧ (∀ m x, mlookup memoF m = some false → gC2.env.kind m ≠ NodeKind.dummy →
          x ∈ gC2.env.preds m → mlookup memoF x = some true → x ∈ dpsF) :=
  claim_C2_amended gC2 0 rfl

/-- Claim C8 fails on the code at the reference cycle of `gC8`: the returned
list is `[0]`, yet the placeholder 2 is in node 0's predecessor closure —
node 0 was appended while its entry was still provisionally `true` and was
downgraded only afterwards, so a listed node's closure can contain a
placeholder. -/
theorem claim_C8_cycle_bug :
    find_replicable_branches gC8 = Except.ok [0]
    ∧ envC8.kind 2 = NodeKind.dummy
    ∧ (∃ L, predClos envC8 0 = some L ∧ 2 ∈ L) :=
  ⟨rfl, rfl, ⟨[1, 0, 2], rfl, by decide⟩⟩

/-- Claim C4: on two independent chains a → c and b → c sharing the single
root c, with a and b each in the non-replicable set, the LCA reduction
returns the merge point c, which is neither a nor b. -/
theorem claim_C4_merge_point (a b c : Nat) (hab : a ≠ b) (hac : a ≠ c) (hbc : b ≠ c) :
    (∃ memo, lcaAux (chainEnv a b c) [a, b] ((chainEnv a b c).univ.length + 1) c []
        = some (memo, some c))
    ∧ c ≠ a ∧ c ≠ b := by
  refine ⟨?_, Ne.symm hac, Ne.symm hbc⟩
  have hba : b ≠ a := Ne.symm hab
  have hpc : (chainEnv a b c).preds c = [a, b] := by simp [chainEnv]
  have h1 : lcaAux (chainEnv a b c) [a, b] 3 a [(c, none)]
      = some ([(a, some a), (c, none)], some a) :=
    lcaAux_self (chainEnv a b c) [a, b] 2 (by simp [mlookup, hac])
      (List.mem_cons_self _ _)
  have h2 : lcaAux (chainEnv a b c) [a, b] 3 b [(a, some a), (c, none)]
      = some ([(b, some b), (a, some a), (c, none)], some b) :=
    lcaAux_self (chainEnv a b c) [a, b] 2 (by simp [mlookup, hba, hbc])
      (List.mem_cons_of_mem _ (List.mem_cons_self _ _))
  have hf : lcaFoldF (lcaAux (chainEnv a b c) [a, b] 3) ((chainEnv a b c).preds c)
      ((c, none) :: []) [] = some ([(b, some b), (a, some a), (c, none)], [a, b]) := by
    rw [hpc]
    simp [lcaFoldF, h1, h2]
  have hcomb : lcaCombine c [a, b] = c := by
    simp [lcaCombine, hba]
  have hmain := lcaAux_fold_pos (chainEnv a b c) [a, b] 3
    (show mlookup [] c = none from rfl)
    (by simp [Ne.symm hac, Ne.symm hbc]) hf (by simp)
  rw [hcomb] at hmain
  exact ⟨_, hmain⟩

/-- Witness for C4 at the identities 0, 1, 2. -/
theorem claim_C4_merge_point_witness :
    (∃ memo, lcaAux (chainEnv 0 1 2) [0, 1] ((chainEnv 0 1 2).univ.length + 1) 2 []
        = some (memo, some 2))
    ∧ (2 : Nat) ≠ 0 ∧ (2 : Nat) ≠ 1 :=
  claim_C4_merge_point 0 1 2 (by decide) (by decide) (by decide)

/-- Claim C7: on the graph r ← x ← p (placeholder) together with r ← y,
branch extraction returns exactly `[y]`; the root is excluded and the
placeholder is never listed. -/
theorem claim_C7_sibling_branch (r x p y : Nat)
    (hrx : r ≠ x) (hrp : r ≠ p) (hry : r ≠ y) (hxp : x ≠ p) (hxy : x ≠ y) (hpy : p ≠ y) :
    find_replicable_branches (siblingGraph r x p y) = Except.ok [y]
    ∧ r ∉ [y] ∧ p ∉ [y] := by
  refine ⟨?_, by simp [hry], by simp [hpy]⟩
  have hkp : (siblingEnv r x p y).kind p = NodeKind.dummy := by simp [siblingEnv]
  have hkr : ¬ (siblingEnv r x p y).kind r = NodeKind.dummy := by simp [siblingEnv, hrp]
  have hkx : ¬ (siblingEnv r x p y).kind x = NodeKind.dummy := by simp [siblingEnv, hxp]
  have hky : ¬ (siblingEnv r x p y).kind y = NodeKind.dummy := by
    simp [siblingEnv, Ne.symm hpy]
  have hpredr : (siblingEnv r x p y).preds r = [x, y] := by simp [siblingEnv]
  have hpredx : (siblingEnv r x p y).preds x = [p] := by simp [siblingEnv, Ne.symm hrx]
  have hpredy : (siblingEnv r x p y).preds y = [] := by
    simp [siblingEnv, Ne.symm hry, Ne.symm hxy]
  have h_p : branchAux (siblingEnv r x p y) 3 p [(x, true), (r, true)] []
      = some ([(p, false), (x, true), (r, true)], [], false) :=
    branchAux_dummy (siblingEnv r x p y) 2
      (by simp [mlookup, Ne.symm hxp, Ne.symm hrp]) hkp
  have h_fx : branchFoldF x (branchAux (siblingEnv r x p y) 3)
      ((siblingEnv r x p y).preds x) [(x, true), (r, true)] []
      = some ([(x, false), (p, false), (x, true), (r, true)], []) := by
    rw [hpredx]
    simp [branchFoldF, h_p]
  have h_x : branchAux (siblingEnv r x p y) 4 x [(r, true)] []
      = some ([(x, false), (p, false), (x, true), (r, true)], [], false) := by
    have h0 := branchAux_fold_false (siblingEnv r x p y) 3
      (by simp [mlookup, Ne.symm hrx]) hkx h_fx (by simp [mlookup])
    rw [hpredx] at h0
    simp only [List.filter, mlookup, if_neg (Ne.symm hxp)] at h0
    simpa using h0
  have h_fy : branchFoldF y (branchAux (siblingEnv r x p y) 3)
      ((siblingEnv r x p y).preds y)
      ((y, true) :: [(r, false), (x, false), (p, false), (x, true), (r, true)]) []
      = some ((y, true) :: [(r, false), (x, false), (p, false), (x, true), (r, true)], []) := by
    rw [hpredy]
    rfl
  have h_y : branchAux (siblingEnv r x p y) 4 y
      [(r, false), (x, false), (p, false), (x, true), (r, true)] []
      = some ([(y, true), (r, false), (x, false), (p, false), (x, true), (r, true)], [],
          true) := by
    have h0 := branchAux_fold_true (siblingEnv r x p y) 3
      (by simp [mlookup, Ne.symm hry, Ne.symm hxy, Ne.symm hpy]) hky h_fy
      (by simp [mlookup])
    exact h0
  have h_fr : branchFoldF r (branchAux (siblingEnv r x p y) 4)
      ((siblingEnv r x p y).preds r) [(r, true)] []
      = some ([(y, true), (r, false), (x, false), (p, false), (x, true), (r, true)], []) := by
    rw [hpredr]
    simp [branchFoldF, h_x, h_y]
  have h_r : branchAux (siblingEnv r x p y) 5 r [] []
      = some ([(y, true), (r, false), (x, false), (p, false), (x, true), (r, true)], [y],
          false) := by
    have h0 := branchAux_fold_false (siblingEnv r x p y) 4
      (show mlookup [] r = none from rfl) hkr h_fr (by simp [mlookup, hry])
    rw [hpredr] at h0
    simp only [List.filter, mlookup, if_neg hxy, if_neg (Ne.symm hrx)] at h0
    simpa [hry] using h0
  have hroots : (siblingGraph r x p y).roots = [r] := rfl
  have hfuel : (siblingGraph r x p y).env.univ.length + 1 = 5 := rfl
  have henv : (siblingGraph r x p y).env = siblingEnv r x p y := rfl
  rw [find_replicable_branches.eq_def]
  rw [hroots]
  have hfuel2 : (siblingEnv r x p y).univ.length + 1 = 5 := rfl
  simp only [henv, hfuel2, h_r]
  simp

/-- Witness for C7 at the identities 0 (root), 1 (x), 2 (placeholder), 3 (y). -/
theorem claim_C7_sibling_branch_witness :
    find_replicable_branches (siblingGraph 0 1 2 3) = Except.ok [3]
    ∧ (0 : Nat) ∉ [3] ∧ (2 : Nat) ∉ [3] :=
  claim_C7_sibling_branch 0 1 2 3 (by decide) (by decide) (by decide)
    (by decide) (by decide) (by decide)
